/-
Verification of the bver version engine (validator / caster / bumper).

The Rust source is shallowly embedded over `List Char` (named `Str` here):
Rust `&str` slicing always happens at positions returned by substring
search, so byte indices and character indices select the same content and
a character-list model is faithful.  Rust `u32` parsing is modelled by
`parseU32` (optional leading plus sign, ASCII digits, value at most
`u32MAX`); `u32` increment is modelled by `u32add1`, which errors where
the Rust `+ 1` would overflow (a panic in the original program).
ASCII lowercasing models `str::to_lowercase` on the ASCII inputs the
engine is specified for.
-/
import Mathlib

set_option maxHeartbeats 1000000

abbrev Str := List Char

deriving instance DecidableEq for Except

/-- ASCII digit test, as Rust `char::is_ascii_digit`. -/
def isDig (c : Char) : Bool := decide (48 ≤ c.toNat ∧ c.toNat ≤ 57)

/-- ASCII alphanumeric test, as Rust `char::is_ascii_alphanumeric`. -/
def isAlnumCh (c : Char) : Bool :=
  decide ((65 ≤ c.toNat ∧ c.toNat ≤ 90) ∨ (97 ≤ c.toNat ∧ c.toNat ≤ 122) ∨ (48 ≤ c.toNat ∧ c.toNat ≤ 57))

/-- ASCII lowercasing of one character. -/
def lowerChar (c : Char) : Char :=
  if 65 ≤ c.toNat ∧ c.toNat ≤ 90 then Char.ofNat (c.toNat + 32) else c

/-- Lowercase a whole string, as `str::to_lowercase` on ASCII input. -/
def lowerStr (s : Str) : Str := s.map lowerChar

/-- Rust `str::split('.')`: dot-separated fields, empty fields preserved. -/
def splitOnDot : Str → List Str
  | [] => [[]]
  | c :: rest =>
    if c = '.' then [] :: splitOnDot rest
    else
      match splitOnDot rest with
      | [] => [[c]]
      | p :: ps => (c :: p) :: ps

/-- Index of the first occurrence of `needle` in `hay`, as Rust `str::find`. -/
def firstIdx (needle : Str) : Str → Option Nat
  | [] => if needle.isPrefixOf [] then some 0 else none
  | c :: rest =>
    if needle.isPrefixOf (c :: rest) then some 0
    else (firstIdx needle rest).map (· + 1)

/-- First occurrence of a single character, as Rust `str::find(char)`. -/
def findChar (c : Char) (s : Str) : Option Nat := firstIdx [c] s

/-- Rust `str::trim_start_matches(char)`: strip every leading copy of `c`. -/
def trimLeadChar (c : Char) : Str → Str
  | [] => []
  | d :: rest => if d = c then trimLeadChar c rest else d :: rest

/-- Fuelled worker for `trimLeadStr`. -/
def trimLeadStrFuel (pat : Str) : Nat → Str → Str
  | 0, s => s
  | fuel + 1, s =>
    if pat ≠ [] ∧ pat.isPrefixOf s = true then trimLeadStrFuel pat fuel (s.drop pat.length)
    else s

/-- Rust `str::trim_start_matches(&str)`: strip every leading copy of `pat`. -/
def trimLeadStr (pat s : Str) : Str := trimLeadStrFuel pat s.length s

/-- Largest `u32` value. -/
def u32MAX : Nat := 4294967295

/-- Value of a digit string read in base ten. -/
def digitsVal (s : Str) : Nat := s.foldl (fun a c => 10 * a + (c.toNat - 48)) 0

/-- Every character is an ASCII digit. -/
def allDigits (s : Str) : Bool := s.all isDig

/-- Digit-string part of `u32::from_str`: nonempty, all digits, in range. -/
def parseDigits (s : Str) : Option Nat :=
  if s ≠ [] ∧ allDigits s = true ∧ digitsVal s ≤ u32MAX then some (digitsVal s) else none

/-- Rust `str::parse::<u32>()`: an optional leading plus sign, then digits. -/
def parseU32 (s : Str) : Option Nat :=
  match s with
  | '+' :: rest => parseDigits rest
  | _ => parseDigits s

/-- Rust `u32` increment; errors where the source `+ 1` would overflow. -/
def u32add1 (n : Nat) : Except Str Nat :=
  if n + 1 ≤ u32MAX then .ok (n + 1) else .error "attempt to add with overflow".toList

/-- Fuelled decimal printer for `u32Repr`. -/
def reprFuel : Nat → Nat → Str
  | 0, _ => []
  | fuel + 1, n =>
    if n < 10 then [Nat.digitChar n]
    else reprFuel fuel (n / 10) ++ [Nat.digitChar (n % 10)]

/-- Decimal rendering of a number, as Rust `format!` does for `u32`. -/
def u32Repr (n : Nat) : Str := reprFuel (n + 1) n

/-- Success test for `Except`. -/
def exceptIsOk : Except α β → Bool
  | .ok _ => true
  | .error _ => false

/- ===== version.rs : the validators ===== -/

/-- File kinds from schema.rs (the schemes Strict, Extended, SemverLike). -/
inductive FileKind
  | Any
  | Simple
  | Python
  | Semver
deriving DecidableEq

/-- Component names used by `validate_simple` (version.rs line 22). -/
def compName (i : Nat) : Str :=
  if i = 0 then "major".toList else if i = 1 then "minor".toList else "patch".toList

/-- Per-component loop of `validate_simple` (version.rs lines 21-26). -/
def checkSimpleParts : Nat → List Str → Except Str Unit
  | _, [] => .ok ()
  | i, p :: rest =>
    if (parseU32 p).isSome then checkSimpleParts (i + 1) rest
    else .error ("Invalid ".toList ++ compName i ++ " version component: ".toList ++ p)

/-- Embedding of `validate_simple` (version.rs lines 14-28). -/
def validate_simple (version : Str) : Except Str Unit :=
  let parts := splitOnDot version
  if parts.length ≠ 3 then
    .error ("Invalid simple version: ".toList ++ version ++ ". Expected format: major.minor.patch".toList)
  else checkSimpleParts 0 parts

/-- Embedding of `is_valid_local` (version.rs lines 77-85). -/
def is_valid_local (l : Str) : Bool :=
  if l = [] then false
  else (splitOnDot l).all (fun seg => decide (seg ≠ []) && seg.all isAlnumCh)

/-- Boundary test shared by `split_at_prerelease` (version.rs line 118) and
`find_release_end` (cast.rs line 166): preceding text absent, or ending in
a dot or an ASCII digit. -/
def valBoundaryOk (before : Str) : Bool :=
  match before.getLast? with
  | none => true
  | some c => c = '.' || isDig c

/-- Keep the smaller candidate position (version.rs lines 119-141). -/
def updEarliest (cur : Option Nat) (pos : Nat) : Option Nat :=
  match cur with
  | none => some pos
  | some c => if pos < c then some pos else some c

/-- One marker step of the scan in `split_at_prerelease`. -/
def valMarkerStep (version : Str) (acc : Option Nat) (m : Str) : Option Nat :=
  match firstIdx m version with
  | some pos => if valBoundaryOk (version.take pos) then updEarliest acc pos else acc
  | none => acc

/-- Embedding of `split_at_prerelease` (version.rs lines 108-148). -/
def split_at_prerelease (version : Str) : Str × Str :=
  let markers := ["alpha".toList, "beta".toList, "preview".toList, "rc".toList,
                  "a".toList, "b".toList, "c".toList]
  let e1 := markers.foldl (valMarkerStep version) none
  let e2 := match firstIdx ".post".toList version with
    | some pos => updEarliest e1 pos
    | none => e1
  let e3 := match firstIdx ".dev".toList version with
    | some pos => updEarliest e2 pos
    | none => e2
  match e3 with
  | some pos => (version.take pos, version.drop pos)
  | none => (version, [])

/-- Embedding of `is_valid_release` (version.rs lines 150-159). -/
def is_valid_release (release : Str) : Bool :=
  if release = [] then false
  else (splitOnDot release).all (fun part => decide (part ≠ []) && allDigits part)

/-- Marker table of `parse_suffixes` (version.rs lines 232-240). -/
def sufPreMarkers : List Str :=
  ["alpha".toList, "beta".toList, "preview".toList, "rc".toList,
   "a".toList, "b".toList, "c".toList]

/-- Pre-release consumption loop of `parse_suffixes` (version.rs lines 242-253). -/
def consumePre (s : Str) : Str :=
  match sufPreMarkers.find? (fun m => m.isPrefixOf s) with
  | some m => (s.drop m.length).dropWhile isDig
  | none => s

/-- Embedding of `parse_suffixes` (version.rs lines 223-280). -/
def parse_suffixes (suffix : Str) : Except Str Unit :=
  if suffix = [] then .ok ()
  else
    let s0 := lowerStr suffix
    let r1 := consumePre s0
    let r2 :=
      if (".post".toList.isPrefixOf r1 || "post".toList.isPrefixOf r1) then
        (trimLeadStr "post".toList (trimLeadChar '.' r1)).dropWhile isDig
      else r1
    let r3 :=
      if (".dev".toList.isPrefixOf r2 || "dev".toList.isPrefixOf r2) then
        (trimLeadStr "dev".toList (trimLeadChar '.' r2)).dropWhile isDig
      else r2
    if r3 = [] then .ok ()
    else .error ("Invalid version suffix: ".toList ++ r3)

/-- Embedding of `parse_main_version` (version.rs lines 87-106). -/
def parse_main_version (version : Str) : Except Str Unit :=
  if version = [] then .error "Version string cannot be empty".toList
  else
    let rp := split_at_prerelease version
    if is_valid_release rp.1 = false then .error ("Invalid release version: ".toList ++ rp.1)
    else if rp.2 = [] then .ok ()
    else parse_suffixes rp.2

/-- Local-segment stage of `validate_python` (version.rs lines 62-71). -/
def pythonAfterEpoch (version : Str) : Except Str Unit :=
  match findChar '+' version with
  | some pos =>
    let lp := version.drop (pos + 1)
    if is_valid_local lp then parse_main_version (version.take pos)
    else .error ("Invalid local version: ".toList ++ lp)
  | none => parse_main_version version

/-- Embedding of `validate_python` (version.rs lines 44-75). -/
def validate_python (version : Str) : Except Str Unit :=
  if version = [] then .error "Version string cannot be empty".toList
  else
    let v := lowerStr version
    match findChar '!' v with
    | some pos =>
      let epoch := v.take pos
      if epoch.all isDig then pythonAfterEpoch (v.drop (pos + 1))
      else .error ("Invalid epoch: ".toList ++ epoch)
    | none => pythonAfterEpoch v

/-- Embedding of `is_valid_semver_identifier` (version.rs lines 216-221). -/
def is_valid_semver_identifier (id : Str) : Bool :=
  (splitOnDot id).all (fun part => decide (part ≠ []) && part.all (fun c => isAlnumCh c || c = '-'))

/-- Release-component loop of `validate_javascript` (version.rs lines 199-204). -/
def checkJsParts : Nat → List Str → Except Str Unit
  | _, [] => .ok ()
  | i, p :: rest =>
    if (parseU32 p).isSome then checkJsParts (i + 1) rest
    else .error ("Invalid ".toList ++ compName i ++ " version: ".toList ++ p)

/-- Embedding of `validate_javascript` (version.rs lines 169-214). -/
def validate_javascript (version : Str) : Except Str Unit :=
  if version = [] then .error "Version string cannot be empty".toList
  else
    let step2 : Str → Except Str Unit := fun v =>
      let rp : Str × Option Str :=
        match findChar '-' v with
        | some pos => (v.take pos, some (v.drop (pos + 1)))
        | none => (v, none)
      let parts := splitOnDot rp.1
      if parts.length ≠ 3 then
        .error ("Invalid semver: ".toList ++ rp.1 ++ ". Expected format: major.minor.patch".toList)
      else
        match checkJsParts 0 parts with
        | .error e => .error e
        | .ok _ =>
          match rp.2 with
          | some pre =>
            if pre = [] ∨ is_valid_semver_identifier pre = false then
              .error ("Invalid prerelease: ".toList ++ pre)
            else .ok ()
          | none => .ok ()
    match findChar '+' version with
    | some pos =>
      let build := version.drop (pos + 1)
      if build = [] ∨ is_valid_semver_identifier build = false then
        .error ("Invalid build metadata: ".toList ++ build)
      else step2 (version.take pos)
    | none => step2 version

/-- Embedding of `validate_version` (version.rs lines 4-11); the Semver kind
dispatches to the semver validator exactly as the Strict and Extended kinds
dispatch to theirs. -/
def validate_version (version : Str) : FileKind → Except Str Unit
  | .Any => .ok ()
  | .Simple => validate_simple version
  | .Python => validate_python version
  | .Semver => validate_javascript version

/- ===== cast.rs : the caster ===== -/

/-- Epoch removal shared by the casters and the bumper (cast.rs lines 20-24,
bump.rs lines 191-195): drop everything up to and including the first `!`. -/
def stripEpoch (version : Str) : Str :=
  match findChar '!' version with
  | some pos => version.drop (pos + 1)
  | none => version

/-- Local-segment removal shared by the casters and the bumper (cast.rs
lines 27-31, bump.rs lines 198-202): drop everything from the first `+`. -/
def stripLocal (version : Str) : Str :=
  match findChar '+' version with
  | some pos => version.take pos
  | none => version

/-- Marker table of `find_release_end` (cast.rs line 158). -/
def releaseEndMarkers : List Str :=
  ["a".toList, "b".toList, "c".toList, "alpha".toList, "beta".toList,
   "preview".toList, "rc".toList, ".post".toList, ".dev".toList, "-".toList]

/-- Embedding of `find_release_end` (cast.rs lines 157-173). -/
def find_release_end (version : Str) : Nat :=
  releaseEndMarkers.foldl
    (fun earliest m =>
      match firstIdx m version with
      | some pos => if valBoundaryOk (version.take pos) then min earliest pos else earliest
      | none => earliest)
    version.length

/-- Lowercased, epoch- and local-stripped working string of `cast_to_simple`. -/
def strippedSimple (version : Str) : Str := stripLocal (stripEpoch (lowerStr version))

/-- Release components that `cast_to_simple` inspects: the dot-fields of the
working string truncated at `find_release_end`. -/
def simpleReleaseParts (version : Str) : List Str :=
  let v := strippedSimple version
  splitOnDot (v.take (find_release_end v))

/-- Embedding of `cast_to_simple` (cast.rs lines 16-57). -/
def cast_to_simple (version : Str) : Except Str Str :=
  let v := strippedSimple version
  let parts := simpleReleaseParts version
  if parts = [] then
    .error ("Cannot cast '".toList ++ v ++ "' to simple version: no version parts found".toList)
  else
    match parts.find? (fun p => (parseU32 p).isNone) with
    | some p =>
      .error ("Cannot cast '".toList ++ v ++ "' to simple version: invalid part '".toList ++ p ++ "'".toList)
    | none =>
      .ok (parts.getD 0 "0".toList ++ ".".toList ++ parts.getD 1 "0".toList
            ++ ".".toList ++ parts.getD 2 "0".toList)

/-- Embedding of `cast_to_python` (cast.rs lines 61-71): both branches return
the input unchanged. -/
def cast_to_python (version : Str) : Except Str Str :=
  let parts := splitOnDot version
  if parts.all (fun p => (parseU32 p).isSome) then .ok version else .ok version

/- ===== bump.rs : the bumper ===== -/

/-- Structured decomposition built by bump.rs `parse_version`
(bump.rs lines 177-185). -/
structure ParsedVersion where
  major : Nat := 0
  minor : Nat := 0
  patch : Nat := 0
  prerelease : Option (Str × Nat) := none
  post : Option Nat := none
  dev : Option Nat := none
deriving DecidableEq

/-- Dev-suffix search of `parse_version` (bump.rs lines 207-218): dotted
spelling first, then bare; the rest of the string is parsed as the number,
defaulting to zero. -/
def devSplit (version : Str) : Str × Option Nat :=
  match firstIdx ".dev".toList version with
  | some pos => (version.take pos, some ((parseU32 (version.drop (pos + 4))).getD 0))
  | none =>
    match firstIdx "dev".toList version with
    | some pos => (version.take pos, some ((parseU32 (version.drop (pos + 3))).getD 0))
    | none => (version, none)

/-- Post-suffix search of `parse_version` (bump.rs lines 221-232). -/
def postSplit (version : Str) : Str × Option Nat :=
  match firstIdx ".post".toList version with
  | some pos => (version.take pos, some ((parseU32 (version.drop (pos + 5))).getD 0))
  | none =>
    match firstIdx "post".toList version with
    | some pos => (version.take pos, some ((parseU32 (version.drop (pos + 4))).getD 0))
    | none => (version, none)

/-- Boundary test of the bumper's marker scan (bump.rs line 250): the scan
skips a marker occurrence unless some character precedes it and that
character is a dot or an ASCII digit. -/
def bumpBoundaryOk (before : Str) : Bool :=
  match before.getLast? with
  | none => false
  | some c => c = '.' || isDig c

/-- Marker table of the bumper's pre-release scan (bump.rs lines 235-243),
pairing each spelling with its canonical kind. -/
def bumpPreMarkers : List (Str × Str) :=
  [("alpha".toList, "alpha".toList), ("beta".toList, "beta".toList),
   ("preview".toList, "rc".toList), ("rc".toList, "rc".toList),
   ("a".toList, "alpha".toList), ("b".toList, "beta".toList), ("c".toList, "rc".toList)]

/-- Pre-release marker loop of `parse_version` (bump.rs lines 246-264):
for each marker in priority order, look at its first occurrence only; accept
it when `bumpBoundaryOk` holds of the text before it, else move on. Returns
the canonical kind, the number read from the digits after the marker, and
the text before the marker. -/
def findPreGo (version : Str) : List (Str × Str) → Option (Str × Nat × Str)
  | [] => none
  | (marker, kind) :: rest =>
    match firstIdx marker version with
    | some pos =>
      let before := version.take pos
      if bumpBoundaryOk before then
        some (kind, (parseU32 ((version.drop (pos + marker.length)).takeWhile isDig)).getD 0, before)
      else findPreGo version rest
    | none => findPreGo version rest

/-- Letter-style pre-release stage of `parse_version`. -/
def preSplit (version : Str) : Option (Str × Nat) × Str :=
  match findPreGo version bumpPreMarkers with
  | some (kind, num, before) => (some (kind, num), before)
  | none => (none, version)

/-- Hyphenated pre-release stage of `parse_version` (bump.rs lines 267-285):
split at the first `-`; when the tail starts with a known kind, overwrite the
pre-release, otherwise keep the previous one; the head becomes the release. -/
def dashSplit (pre : Option (Str × Nat)) (release : Str) : Option (Str × Nat) × Str :=
  match firstIdx "-".toList release with
  | some pos =>
    let pp := release.drop (pos + 1)
    let newPre :=
      if "alpha".toList.isPrefixOf pp then
        some ("alpha".toList, (parseU32 (trimLeadChar '.' (pp.drop 5))).getD 0)
      else if "beta".toList.isPrefixOf pp then
        some ("beta".toList, (parseU32 (trimLeadChar '.' (pp.drop 4))).getD 0)
      else if "rc".toList.isPrefixOf pp then
        some ("rc".toList, (parseU32 (trimLeadChar '.' (pp.drop 2))).getD 0)
      else pre
    (newPre, release.take pos)
  | none => (pre, release)

/-- Component parse with the bumper's error message (bump.rs lines 293-301). -/
def parseComp (name p : Str) : Except Str Nat :=
  match parseU32 p with
  | some n => .ok n
  | none => .error ("Invalid ".toList ++ name ++ " version: ".toList ++ p)

/-- Final release-splitting stage of `parse_version` (bump.rs lines 287-303);
`vctx` is the string mentioned by the unreachable empty-parts message. -/
def parseMMP (vctx rel : Str) (pre : Option (Str × Nat)) (post dev : Option Nat) :
    Except Str ParsedVersion :=
  let parts := splitOnDot rel
  if parts = [] then .error ("Invalid version format: ".toList ++ vctx)
  else do
    let major ← parseComp "major".toList (parts.getD 0 [])
    let minor ← parseComp "minor".toList (parts.getD 1 "0".toList)
    let patch ← parseComp "patch".toList (parts.getD 2 "0".toList)
    .ok { major := major, minor := minor, patch := patch,
          prerelease := pre, post := post, dev := dev }

/-- Embedding of bump.rs `parse_version` (bump.rs lines 187-304). -/
def parse_version (version0 : Str) : Except Str ParsedVersion :=
  let v1 := stripLocal (stripEpoch (lowerStr version0))
  let dv := devSplit v1
  let pv := postSplit dv.1
  let pr := preSplit pv.1
  let dr := dashSplit pr.1 pr.2
  parseMMP pv.1 dr.2 dr.1 pv.2 dv.2

/-- Embedding of `prerelease_prefix` (bump.rs lines 168-175), the letter used
when re-serializing a pre-release kind. -/
def prereleaseAbbrev (kind : Str) : Str :=
  if kind = "alpha".toList then "a".toList
  else if kind = "beta".toList then "b".toList
  else if kind = "rc".toList then "rc".toList
  else []

/-- Serialization `major.minor.patch` used throughout `compute_new_version`. -/
def tripleStr (a b c : Nat) : Str :=
  u32Repr a ++ ".".toList ++ u32Repr b ++ ".".toList ++ u32Repr c

/-- Pre-release fragment re-appended by the post and dev branches of
`compute_new_version` (bump.rs lines 146-149, 155-158). -/
def preStr (p : ParsedVersion) : Str :=
  match p.prerelease with
  | some (k, n) => prereleaseAbbrev k ++ u32Repr n
  | none => []

/-- Next pre-release number for the alpha/beta/rc branches of
`compute_new_version` (bump.rs lines 123-126): same kind increments,
anything else restarts at one. -/
def preNumFor (p : ParsedVersion) (kind : Str) : Except Str Nat :=
  match p.prerelease with
  | some (k, n) => if k = kind then u32add1 n else .ok 1
  | none => .ok 1

/-- Keyword dispatch of `compute_new_version` (bump.rs lines 107-165), acting
on an already-parsed version. -/
def cnvBody (p : ParsedVersion) (component : Str) : Except Str Str :=
  if component = "major".toList then do
    let m ← u32add1 p.major
    .ok (tripleStr m 0 0)
  else if component = "minor".toList then do
    let m ← u32add1 p.minor
    .ok (tripleStr p.major m 0)
  else if component = "patch".toList then
    if p.prerelease.isSome || p.post.isSome || p.dev.isSome then
      .ok (tripleStr p.major p.minor p.patch)
    else do
      let q ← u32add1 p.patch
      .ok (tripleStr p.major p.minor q)
  else if component = "release".toList then
    .ok (tripleStr p.major p.minor p.patch)
  else if component = "alpha".toList then do
    let num ← preNumFor p "alpha".toList
    .ok (tripleStr p.major p.minor p.patch ++ "a".toList ++ u32Repr num)
  else if component = "beta".toList then do
    let num ← preNumFor p "beta".toList
    .ok (tripleStr p.major p.minor p.patch ++ "b".toList ++ u32Repr num)
  else if component = "rc".toList then do
    let num ← preNumFor p "rc".toList
    .ok (tripleStr p.major p.minor p.patch ++ "rc".toList ++ u32Repr num)
  else if component = "post".toList then do
    let num ← match p.post with
      | some n => u32add1 n
      | none => Except.ok 1
    .ok (tripleStr p.major p.minor p.patch ++ preStr p ++ ".post".toList ++ u32Repr num)
  else if component = "dev".toList then do
    let num ← match p.dev with
      | some n => u32add1 n
      | none => Except.ok 1
    let postPart := match p.post with
      | some n => ".post".toList ++ u32Repr n
      | none => ([] : Str)
    .ok (tripleStr p.major p.minor p.patch ++ preStr p ++ postPart ++ ".dev".toList ++ u32Repr num)
  else
    .error ("Invalid component: ".toList ++ component
             ++ ". Use major, minor, patch, release, alpha, beta, rc, post, or dev".toList)

/-- Embedding of `compute_new_version` (bump.rs lines 104-166). -/
def compute_new_version (current component : Str) : Except Str Str := do
  let p ← parse_version current
  cnvBody p component

/- ===== claim-side auxiliary definitions ===== -/

/-- Index of the first component whose `u32` parse fails. -/
def badIdx (parts : List Str) : Nat := parts.findIdx (fun p => (parseU32 p).isNone)

/-- Next pre-release number as the claim states it: the same kind increments
its number, any other situation restarts at one. -/
def nextPreNum (p : ParsedVersion) (kind : Str) : Nat :=
  match p.prerelease with
  | some (k, n) => if k = kind then n + 1 else 1
  | none => 1

/-- Release triple of a version string, read back through the bumper's own
parser. -/
def releaseTriple (s : Str) : Option (Nat × Nat × Nat) :=
  match parse_version s with
  | .ok p => some (p.major, p.minor, p.patch)
  | .error _ => none

/-- Strict lexicographic order on release triples. -/
def lexLt (x y : Nat × Nat × Nat) : Prop :=
  x.1 < y.1 ∨ (x.1 = y.1 ∧ (x.2.1 < y.2.1 ∨ (x.2.1 = y.2.1 ∧ x.2.2 < y.2.2)))

/- ===== basic lemmas about the string primitives ===== -/

theorem exbind_ok (a : α) (f : α → Except ε β) : (Except.ok a >>= f : Except ε β) = f a := rfl

theorem foldl_fixed {L : List α} {step : β → α → β} {init : β}
    (h : ∀ m ∈ L, ∀ acc, step acc m = acc) : L.foldl step init = init := by
  induction L generalizing init with
  | nil => rfl
  | cons m rest ih =>
    simp only [List.foldl_cons]
    rw [h m (List.mem_cons_self m rest) init]
    exact ih (fun x hx acc => h x (List.mem_cons_of_mem m hx) acc)

theorem prefix_bool_iff {l₁ l₂ : Str} : l₁.isPrefixOf l₂ = true ↔ l₁ <+: l₂ :=
  List.isPrefixOf_iff_prefix

theorem prefix_getElem {needle l : Str} (hp : needle <+: l) {k : Nat} (hk : k < needle.length) :
    l[k]? = needle[k]? := by
  obtain ⟨t, rfl⟩ := hp
  exact List.getElem?_append_left hk

theorem firstIdx_some_iff (needle : Str) : ∀ (hay : Str) (i : Nat),
    firstIdx needle hay = some i ↔
      (needle <+: hay.drop i ∧ ∀ j < i, ¬ needle <+: hay.drop j) := by
  intro hay
  induction hay with
  | nil =>
    intro i
    simp only [firstIdx, List.drop_nil]
    by_cases h : needle <+: ([] : Str)
    · rw [if_pos (prefix_bool_iff.mpr h)]
      constructor
      · intro he
        obtain rfl : i = 0 := by injection he with h2; omega
        exact ⟨h, fun j hj => absurd hj (Nat.not_lt_zero j)⟩
      · rintro ⟨-, h2⟩
        rcases Nat.eq_zero_or_pos i with rfl | hi
        · rfl
        · exact absurd h (h2 0 hi)
    · rw [if_neg (fun hb => h (prefix_bool_iff.mp hb))]
      constructor
      · intro he; exact absurd he (by simp)
      · rintro ⟨h1, -⟩; exact absurd h1 h
  | cons c rest ih =>
    intro i
    simp only [firstIdx]
    by_cases h : needle <+: (c :: rest)
    · rw [if_pos (prefix_bool_iff.mpr h)]
      constructor
      · intro he
        obtain rfl : i = 0 := by injection he with h2; omega
        exact ⟨by simpa using h, fun j hj => absurd hj (Nat.not_lt_zero j)⟩
      · rintro ⟨-, h2⟩
        rcases Nat.eq_zero_or_pos i with rfl | hi
        · rfl
        · exact absurd h (by simpa using h2 0 hi)
    · rw [if_neg (fun hb => h (prefix_bool_iff.mp hb))]
      cases i with
      | zero =>
        simp only [Option.map_eq_some']
        constructor
        · rintro ⟨a, -, ha⟩; omega
        · rintro ⟨h1, -⟩
          exact absurd (by simpa using h1) h
      | succ n =>
        simp only [Option.map_eq_some']
        constructor
        · rintro ⟨a, ha, ha2⟩
          have han : a = n := by omega
          subst han
          obtain ⟨h1, h2⟩ := (ih a).mp ha
          refine ⟨by simpa using h1, ?_⟩
          intro j hj
          cases j with
          | zero => simpa using h
          | succ j2 => simpa using h2 j2 (by omega)
        · rintro ⟨h1, h2⟩
          refine ⟨n, (ih n).mpr ⟨by simpa using h1, ?_⟩, rfl⟩
          intro j hj
          simpa using h2 (j + 1) (by omega)

theorem firstIdx_none_iff (needle hay : Str) :
    firstIdx needle hay = none ↔ ∀ j, ¬ needle <+: hay.drop j := by
  induction hay with
  | nil =>
    simp only [firstIdx, List.drop_nil]
    by_cases h : needle <+: ([] : Str)
    · rw [if_pos (prefix_bool_iff.mpr h)]
      constructor
      · intro he; exact absurd he (by simp)
      · intro hall; exact absurd h (hall 0)
    · rw [if_neg (fun hb => h (prefix_bool_iff.mp hb))]
      exact ⟨fun _ j => h, fun _ => rfl⟩
  | cons c rest ih =>
    simp only [firstIdx]
    by_cases h : needle <+: (c :: rest)
    · rw [if_pos (prefix_bool_iff.mpr h)]
      constructor
      · intro he; exact absurd he (by simp)
      · intro hall; exact absurd h (by simpa using hall 0)
    · rw [if_neg (fun hb => h (prefix_bool_iff.mp hb))]
      simp only [Option.map_eq_none']
      rw [ih]
      constructor
      · intro hall j
        cases j with
        | zero => simpa using h
        | succ j2 => simpa using hall j2
      · intro hall j
        simpa using hall (j + 1)

theorem firstIdx_none_of_not_mem {needle hay : Str} {c : Char}
    (hc : c ∈ needle) (hn : c ∉ hay) : firstIdx needle hay = none := by
  rw [firstIdx_none_iff]
  intro j hp
  exact hn ((List.drop_sublist j hay).subset (hp.sublist.subset hc))

theorem singleton_prefix_iff (c : Char) (l : Str) : [c] <+: l ↔ l[0]? = some c := by
  constructor
  · rintro ⟨t, rfl⟩; simp
  · intro h
    cases l with
    | nil => simp at h
    | cons d rest =>
      obtain rfl : d = c := by simpa using h
      exact ⟨rest, rfl⟩

theorem findChar_none_iff (c : Char) (s : Str) : findChar c s = none ↔ c ∉ s := by
  unfold findChar
  rw [firstIdx_none_iff]
  constructor
  · intro hall hmem
    obtain ⟨j, hj, hj2⟩ := List.mem_iff_getElem.mp hmem
    refine hall j ((singleton_prefix_iff c (s.drop j)).mpr ?_)
    rw [List.getElem?_drop]
    simp [List.getElem?_eq_getElem hj, hj2]
  · intro hnm j hp
    rw [singleton_prefix_iff, List.getElem?_drop] at hp
    exact hnm (List.getElem?_mem hp)

theorem findChar_some_not_mem_take {c : Char} {s : Str} {pos : Nat}
    (h : findChar c s = some pos) : c ∉ s.take pos := by
  unfold findChar at h
  obtain ⟨-, h2⟩ := (firstIdx_some_iff [c] s pos).mp h
  intro hmem
  obtain ⟨j, hj, hj2⟩ := List.mem_iff_getElem.mp hmem
  have hjlen : j < pos := by
    have := hj
    simp only [List.length_take] at this
    omega
  refine h2 j hjlen ((singleton_prefix_iff c (s.drop j)).mpr ?_)
  rw [List.getElem?_drop]
  have : s.take pos ⊆ s := (List.take_sublist pos s).subset
  have hsj : s[j]? = some c := by
    have h3 : (s.take pos)[j]? = some c := by
      simp [List.getElem?_eq_getElem hj, hj2]
    rw [List.getElem?_take, if_pos hjlen] at h3
    exact h3
  simpa using hsj

theorem splitOnDot_ne_nil (s : Str) : splitOnDot s ≠ [] := by
  cases s with
  | nil => simp [splitOnDot]
  | cons c rest =>
    simp only [splitOnDot]
    by_cases h : c = '.'
    · simp [h]
    · rw [if_neg h]
      cases splitOnDot rest <;> simp

theorem splitOnDot_chars {s : Str} : ∀ p ∈ splitOnDot s, ∀ c ∈ p, c ∈ s ∧ c ≠ '.' := by
  induction s with
  | nil =>
    intro p hp c hc
    simp [splitOnDot] at hp
    subst hp
    simp at hc
  | cons d rest ih =>
    intro p hp c hc
    simp only [splitOnDot] at hp
    by_cases hd : d = '.'
    · rw [if_pos hd] at hp
      rcases List.mem_cons.mp hp with rfl | hp2
      · simp at hc
      · obtain ⟨h1, h2⟩ := ih p hp2 c hc
        exact ⟨List.mem_cons_of_mem d h1, h2⟩
    · rw [if_neg hd] at hp
      rcases hrec : splitOnDot rest with - | ⟨q, qs⟩
      · exact absurd hrec (splitOnDot_ne_nil rest)
      · rw [hrec] at hp
        rcases List.mem_cons.mp hp with rfl | hp2
        · rcases List.mem_cons.mp hc with rfl | hc2
          · exact ⟨List.mem_cons_self c rest, hd⟩
          · obtain ⟨h1, h2⟩ := ih q (by rw [hrec]; exact List.mem_cons_self q qs) c hc2
            exact ⟨List.mem_cons_of_mem d h1, h2⟩
        · obtain ⟨h1, h2⟩ := ih p (by rw [hrec]; exact List.mem_cons_of_mem q hp2) c hc
          exact ⟨List.mem_cons_of_mem d h1, h2⟩

theorem splitOnDot_dotfree {a : Str} (h : '.' ∉ a) : splitOnDot a = [a] := by
  induction a with
  | nil => simp [splitOnDot]
  | cons c rest ih =>
    simp only [splitOnDot]
    rw [if_neg (fun hc => h (by rw [← hc]; exact List.mem_cons_self c rest))]
    rw [ih (fun hm => h (List.mem_cons_of_mem c hm))]

theorem splitOnDot_append_dot {a : Str} (t : Str) (h : '.' ∉ a) :
    splitOnDot (a ++ '.' :: t) = a :: splitOnDot t := by
  induction a with
  | nil => simp [splitOnDot]
  | cons c rest ih =>
    simp only [List.cons_append, splitOnDot, List.append_eq]
    rw [if_neg (fun hc => h (by rw [← hc]; exact List.mem_cons_self c rest))]
    rw [ih (fun hm => h (List.mem_cons_of_mem c hm))]

/- ===== lemmas about characters, digits and number rendering ===== -/

theorem ne_of_isDig {c ch : Char} (h : isDig c = true) (hch : isDig ch = false) : c ≠ ch := by
  intro he
  rw [he, hch] at h
  exact Bool.false_ne_true h

theorem lowerChar_isDig {c : Char} (h : isDig c = true) : lowerChar c = c := by
  simp only [isDig, decide_eq_true_eq] at h
  simp only [lowerChar]
  rw [if_neg (by omega)]

theorem lowerStr_fixed {s : Str} (h : ∀ c ∈ s, lowerChar c = c) : lowerStr s = s := by
  induction s with
  | nil => rfl
  | cons c rest ih =>
    simp only [lowerStr, List.map_cons]
    rw [h c (List.mem_cons_self c rest)]
    have := ih (fun d hd => h d (List.mem_cons_of_mem c hd))
    simp only [lowerStr] at this
    rw [this]

theorem digitsVal_append_singleton (xs : Str) (c : Char) :
    digitsVal (xs ++ [c]) = 10 * digitsVal xs + (c.toNat - 48) := by
  simp [digitsVal, List.foldl_append]

theorem digitChar_isDig {d : Nat} (h : d < 10) : isDig (Nat.digitChar d) = true := by
  interval_cases d <;> decide

theorem digitChar_val {d : Nat} (h : d < 10) : (Nat.digitChar d).toNat - 48 = d := by
  interval_cases d <;> decide

theorem reprFuel_spec : ∀ fuel n, n < fuel →
    (reprFuel fuel n ≠ [] ∧ allDigits (reprFuel fuel n) = true ∧
      digitsVal (reprFuel fuel n) = n) := by
  intro fuel
  induction fuel with
  | zero => intro n h; omega
  | succ f ih =>
    intro n h
    by_cases h10 : n < 10
    · simp only [reprFuel, if_pos h10]
      refine ⟨by simp, ?_, ?_⟩
      · simp [allDigits, digitChar_isDig h10]
      · have : digitsVal [Nat.digitChar n] = (Nat.digitChar n).toNat - 48 := by
          simp [digitsVal]
        rw [this, digitChar_val h10]
    · simp only [reprFuel, if_neg h10]
      have hlt : n / 10 < f := by omega
      obtain ⟨h1, h2, h3⟩ := ih (n / 10) hlt
      refine ⟨by simp, ?_, ?_⟩
      · simp only [allDigits, List.all_append, Bool.and_eq_true] at *
        exact ⟨h2, by simp [digitChar_isDig (Nat.mod_lt n (by omega))]⟩
      · rw [digitsVal_append_singleton, h3, digitChar_val (Nat.mod_lt n (by omega))]
        omega

theorem u32Repr_spec (n : Nat) :
    u32Repr n ≠ [] ∧ allDigits (u32Repr n) = true ∧ digitsVal (u32Repr n) = n :=
  reprFuel_spec (n + 1) n (Nat.lt_succ_self n)

theorem u32Repr_all_isDig (n : Nat) : ∀ c ∈ u32Repr n, isDig c = true := by
  have h := (u32Repr_spec n).2.1
  simp only [allDigits, List.all_eq_true] at h
  exact h

theorem parseDigits_u32Repr {n : Nat} (h : n ≤ u32MAX) : parseDigits (u32Repr n) = some n := by
  obtain ⟨h1, h2, h3⟩ := u32Repr_spec n
  simp only [parseDigits]
  rw [if_pos ⟨h1, h2, by omega⟩, h3]

theorem parseU32_head_ne {c : Char} {t : Str} (hc : c ≠ '+') :
    parseU32 (c :: t) = parseDigits (c :: t) := by
  simp only [parseU32]
  split
  · rename_i rest heq
    injection heq with h1 h2
    exact absurd h1 hc
  · rfl

theorem parseU32_u32Repr {n : Nat} (h : n ≤ u32MAX) : parseU32 (u32Repr n) = some n := by
  have hne := (u32Repr_spec n).1
  have hd := u32Repr_all_isDig n
  rcases hrep : u32Repr n with - | ⟨c, t⟩
  · exact absurd hrep hne
  · have hc : isDig c = true := by
      refine hd c ?_
      rw [hrep]; exact List.mem_cons_self c t
    rw [parseU32_head_ne (ne_of_isDig hc (by decide)), ← hrep, parseDigits_u32Repr h]

theorem parseU32_le {s : Str} {n : Nat} (h : parseU32 s = some n) : n ≤ u32MAX := by
  have hd : ∀ t, parseDigits t = some n → n ≤ u32MAX := by
    intro t ht
    simp only [parseDigits] at ht
    by_cases hc : t ≠ [] ∧ allDigits t = true ∧ digitsVal t ≤ u32MAX
    · rw [if_pos hc] at ht
      injection ht with ht2
      omega
    · rw [if_neg hc] at ht
      exact absurd ht (by simp)
  simp only [parseU32] at h
  split at h
  · exact hd _ h
  · exact hd _ h

theorem parseU32_digits {s : Str} {n : Nat} (hplus : '+' ∉ s) (h : parseU32 s = some n) :
    s ≠ [] ∧ allDigits s = true := by
  have hps : parseU32 s = parseDigits s := by
    rcases s with - | ⟨c, t⟩
    · rfl
    · refine parseU32_head_ne (fun hc => hplus ?_)
      rw [hc]
      exact List.mem_cons_self '+' t
  rw [hps] at h
  simp only [parseDigits] at h
  by_cases hc : s ≠ [] ∧ allDigits s = true ∧ digitsVal s ≤ u32MAX
  · exact ⟨hc.1, hc.2.1⟩
  · rw [if_neg hc] at h
    exact absurd h (by simp)

theorem dropWhile_all_digits {N : Str} (h : allDigits N = true) : N.dropWhile isDig = [] := by
  induction N with
  | nil => rfl
  | cons c t ih =>
    simp only [allDigits, List.all_cons, Bool.and_eq_true] at h
    rw [List.dropWhile_cons, if_pos h.1]
    exact ih h.2

theorem trimLeadChar_cons_ne {c d : Char} (t : Str) (h : d ≠ c) :
    trimLeadChar c (d :: t) = d :: t := by
  simp only [trimLeadChar]
  rw [if_neg h]

theorem trimLeadStrFuel_not {pat s : Str} (fuel : Nat) (h : ¬ pat <+: s) :
    trimLeadStrFuel pat fuel s = s := by
  cases fuel with
  | zero => rfl
  | succ f =>
    simp only [trimLeadStrFuel]
    rw [if_neg]
    rintro ⟨-, h2⟩
    exact h (prefix_bool_iff.mp h2)

theorem trimLeadStrFuel_step {pat t : Str} (hne : pat ≠ []) (fuel : Nat) :
    trimLeadStrFuel pat (fuel + 1) (pat ++ t) = trimLeadStrFuel pat fuel t := by
  simp only [trimLeadStrFuel]
  rw [if_pos ⟨hne, prefix_bool_iff.mpr ⟨t, rfl⟩⟩, List.drop_left]

theorem trimLeadStr_strip {pat t : Str} (hne : pat ≠ []) (h : ¬ pat <+: t) :
    trimLeadStr pat (pat ++ t) = t := by
  unfold trimLeadStr
  have hlen : (pat ++ t).length = (pat.length - 1 + t.length) + 1 := by
    have : 1 ≤ pat.length := List.length_pos.mpr hne
    simp only [List.length_append]
    omega
  rw [hlen, trimLeadStrFuel_step hne, trimLeadStrFuel_not _ h]

theorem not_prefix_cons_digits {c : Char} {pr N : Str} (hcd : isDig c = false)
    (hN : allDigits N = true) : ¬ (c :: pr) <+: N := by
  rintro ⟨t, rfl⟩
  simp only [allDigits, List.cons_append, List.all_cons, Bool.and_eq_true] at hN
  rw [hN.1] at hcd
  exact Bool.noConfusion hcd

theorem findPreGo_none {version : Str} : ∀ {L : List (Str × Str)},
    (∀ mk ∈ L, firstIdx mk.1 version = none) → findPreGo version L = none := by
  intro L
  induction L with
  | nil => intro _; rfl
  | cons mk rest ih =>
    intro h
    obtain ⟨marker, kind⟩ := mk
    simp only [findPreGo]
    rw [h (marker, kind) (List.mem_cons_self _ _)]
    exact ih (fun x hx => h x (List.mem_cons_of_mem _ hx))

theorem checkSimpleParts_ok_iff : ∀ (i : Nat) (parts : List Str),
    checkSimpleParts i parts = .ok () ↔ ∀ p ∈ parts, (parseU32 p).isSome = true := by
  intro i parts
  induction parts generalizing i with
  | nil => simp [checkSimpleParts]
  | cons p rest ih =>
    simp only [checkSimpleParts]
    by_cases hp : (parseU32 p).isSome = true
    · rw [if_pos hp, ih (i + 1)]
      constructor
      · intro h q hq
        rcases List.mem_cons.mp hq with rfl | hq2
        · exact hp
        · exact h q hq2
      · intro h q hq
        exact h q (List.mem_cons_of_mem p hq)
    · rw [if_neg hp]
      constructor
      · intro h; exact absurd h (by simp)
      · intro h
        exact absurd (h p (List.mem_cons_self p rest)) hp

/- ===== claim C10 ===== -/

/-- C10: casting to the Extended (Python) scheme is the total identity: for
every input string whatsoever, `cast_to_python` succeeds and returns its
input unchanged; nothing is ever normalized, stripped or rejected. -/
theorem C10_cast_to_python_identity (v : Str) : cast_to_python v = .ok v := by
  simp only [cast_to_python]
  split <;> rfl

/- ===== claim C8 ===== -/

/-- C8: the validators decide the four concrete examples exactly as the spec
states: the semver-like scheme rejects a two-component release, an empty
prerelease segment, and a dotted post suffix, while the Extended scheme
accepts `1.2.3a1`. -/
theorem C8_scheme_rejection_examples :
    validate_version "1.0".toList .Semver =
        .error ("Invalid semver: 1.0. Expected format: major.minor.patch".toList) ∧
    validate_version "1.2.3-".toList .Semver = .error ("Invalid prerelease: ".toList) ∧
    validate_version "1.2.3.post1".toList .Semver =
        .error ("Invalid semver: 1.2.3.post1. Expected format: major.minor.patch".toList) ∧
    validate_version "1.2.3a1".toList .Python = .ok () :=
  ⟨by decide, by decide, by decide, by decide⟩

/- ===== claim C3 ===== -/

/-- C3 counterexample: the Strict validator accepts `1.+2.3`, although the
claim demands that a component with a leading plus sign be rejected; Rust's
`u32` parser accepts an optional leading plus sign. -/
theorem C3_counterexample_plus_accepted : validate_simple "1.+2.3".toList = .ok () := by
  decide

/-- C3 (amended): the Strict validator accepts a string exactly when it has
three dot-separated components and each parses as a Rust `u32` (digits with
an optional leading plus sign, value at most `u32MAX`); a rejection of a
three-component string reports the first failing component under its name
major, minor or patch. -/
theorem C3_validate_simple_spec (v : Str) :
    (validate_simple v = .ok () ↔
      ((splitOnDot v).length = 3 ∧ ∀ p ∈ splitOnDot v, (parseU32 p).isSome = true)) ∧
    (∀ e, validate_simple v = .error e → (splitOnDot v).length = 3 →
      e = "Invalid ".toList ++ compName (badIdx (splitOnDot v))
            ++ " version component: ".toList ++ (splitOnDot v).getD (badIdx (splitOnDot v)) []) := by
  constructor
  · simp only [validate_simple]
    by_cases hlen : (splitOnDot v).length ≠ 3
    · rw [if_pos hlen]
      constructor
      · intro h; exact absurd h (by simp)
      · rintro ⟨h1, -⟩; exact absurd h1 hlen
    · rw [if_neg hlen]
      rw [checkSimpleParts_ok_iff]
      push_neg at hlen
      exact ⟨fun h => ⟨hlen, h⟩, fun h => h.2⟩
  · intro e he hlen
    obtain ⟨a, b, c, habc⟩ := List.length_eq_three.mp hlen
    simp only [validate_simple, habc] at he ⊢
    rw [if_neg (by simp)] at he
    simp only [checkSimpleParts, badIdx] at he ⊢
    rcases hpa : parseU32 a with - | na
    · rw [hpa] at he
      rw [if_neg (by simp)] at he
      injection he with he2
      rw [List.findIdx_cons]
      simp only [hpa, Option.isNone_none, cond_true]
      simp [← he2]
    · rw [hpa] at he
      rw [if_pos (by simp)] at he
      rcases hpb : parseU32 b with - | nb
      · rw [hpb] at he
        rw [if_neg (by simp)] at he
        injection he with he2
        rw [List.findIdx_cons, List.findIdx_cons]
        simp only [hpa, hpb, Option.isNone_none, Option.isNone_some, cond_true, cond_false]
        simp [← he2]
      · rw [hpb] at he
        rw [if_pos (by simp)] at he
        rcases hpc : parseU32 c with - | nc
        · rw [hpc] at he
          rw [if_neg (by simp)] at he
          injection he with he2
          rw [List.findIdx_cons, List.findIdx_cons, List.findIdx_cons]
          simp only [hpa, hpb, hpc, Option.isNone_none, Option.isNone_some, cond_true, cond_false]
          simp [← he2]
        · rw [hpc] at he
          rw [if_pos (by simp)] at he
          exact absurd he (by simp [checkSimpleParts])

/-- C3 witness: the amended error-naming clause evaluated at `1.x.3`. -/
theorem C3_validate_simple_spec_witness :
    "Invalid minor version component: x".toList =
      "Invalid ".toList ++ compName (badIdx (splitOnDot "1.x.3".toList))
        ++ " version component: ".toList
        ++ (splitOnDot "1.x.3".toList).getD (badIdx (splitOnDot "1.x.3".toList)) [] :=
  (C3_validate_simple_spec ("1.x.3".toList)).2
    ("Invalid minor version component: x".toList) (by decide) (by decide)

/- ===== further concrete counterexamples ===== -/

/-- C1 counterexample: the claim includes the bare spelling `1.2.3post1`, but
`find_release_end` searches only for the dotted `.post` marker, so the bare
suffix stays glued to the release and the cast fails. -/
theorem C1_counterexample_bare_post :
    cast_to_simple "1.2.3post1".toList =
      .error ("Cannot cast '1.2.3post1' to simple version: invalid part '3post1'".toList) := by
  decide

/-- C4 counterexample: the Extended validator rejects the bare spelling
`1.2post1`; its suffix splitter recognizes only the dotted `.post` boundary,
so `post1` stays inside the release part. -/
theorem C4_counterexample_bare_post :
    validate_python "1.2post1".toList =
      .error ("Invalid release version: 1.2post1".toList) := by
  decide

/-- C5 counterexample: `4294967296.0.0` is of the form `a.b.c` with
non-negative integers, yet the Strict validator rejects it because the major
component overflows `u32`. -/
theorem C5_counterexample_overflow :
    validate_simple "4294967296.0.0".toList =
      .error ("Invalid major version component: 4294967296".toList) := by
  decide

/-- C9 counterexample: in `1!a1` the scanned string after epoch stripping is
`a1`, whose marker `a` has no preceding character; the claim says an absent
preceding character makes a boundary, but the bumper skips the marker and
fails to parse `a1` as the major component. -/
theorem C9_counterexample_absent_boundary :
    parse_version "1!a1".toList = .error ("Invalid major version: a1".toList) := by
  decide

/- ===== lemmas about the bumper ===== -/

theorem exbind_err (e : ε) (f : α → Except ε β) :
    (Except.error e >>= f : Except ε β) = Except.error e := rfl

theorem cnv_ok {v : Str} {p : ParsedVersion} (h : parse_version v = .ok p) (comp : Str) :
    compute_new_version v comp = cnvBody p comp := by
  unfold compute_new_version
  rw [h]
  rfl

theorem cnvBody_major (p : ParsedVersion) : cnvBody p "major".toList =
    (do let m ← u32add1 p.major
        Except.ok (tripleStr m 0 0)) := by
  unfold cnvBody
  rw [if_pos rfl]

theorem cnvBody_minor (p : ParsedVersion) : cnvBody p "minor".toList =
    (do let m ← u32add1 p.minor
        Except.ok (tripleStr p.major m 0)) := by
  unfold cnvBody
  rw [if_neg (by decide), if_pos rfl]

theorem cnvBody_patch (p : ParsedVersion) : cnvBody p "patch".toList =
    (if p.prerelease.isSome || p.post.isSome || p.dev.isSome then
      Except.ok (tripleStr p.major p.minor p.patch)
    else do
      let q ← u32add1 p.patch
      Except.ok (tripleStr p.major p.minor q)) := by
  unfold cnvBody
  rw [if_neg (by decide), if_neg (by decide), if_pos rfl]

theorem cnvBody_alpha (p : ParsedVersion) : cnvBody p "alpha".toList =
    (do let num ← preNumFor p "alpha".toList
        Except.ok (tripleStr p.major p.minor p.patch ++ "a".toList ++ u32Repr num)) := by
  unfold cnvBody
  rw [if_neg (by decide), if_neg (by decide), if_neg (by decide), if_neg (by decide), if_pos rfl]

theorem cnvBody_beta (p : ParsedVersion) : cnvBody p "beta".toList =
    (do let num ← preNumFor p "beta".toList
        Except.ok (tripleStr p.major p.minor p.patch ++ "b".toList ++ u32Repr num)) := by
  unfold cnvBody
  rw [if_neg (by decide), if_neg (by decide), if_neg (by decide), if_neg (by decide),
    if_neg (by decide), if_pos rfl]

theorem cnvBody_rc (p : ParsedVersion) : cnvBody p "rc".toList =
    (do let num ← preNumFor p "rc".toList
        Except.ok (tripleStr p.major p.minor p.patch ++ "rc".toList ++ u32Repr num)) := by
  unfold cnvBody
  rw [if_neg (by decide), if_neg (by decide), if_neg (by decide), if_neg (by decide),
    if_neg (by decide), if_neg (by decide), if_pos rfl]

theorem u32add1_ok {n : Nat} (h : n < u32MAX) : u32add1 n = .ok (n + 1) := by
  unfold u32add1
  rw [if_pos (by omega)]

theorem preNumFor_none (p : ParsedVersion) (kind : Str) (hpre : p.prerelease = none) :
    preNumFor p kind = .ok 1 := by
  unfold preNumFor
  rw [hpre]

theorem preNumFor_some (p : ParsedVersion) (kind k : Str) (n : Nat)
    (hpre : p.prerelease = some (k, n)) :
    preNumFor p kind = if k = kind then u32add1 n else .ok 1 := by
  unfold preNumFor
  rw [hpre]

theorem nextPreNum_none (p : ParsedVersion) (kind : Str) (hpre : p.prerelease = none) :
    nextPreNum p kind = 1 := by
  unfold nextPreNum
  rw [hpre]

theorem nextPreNum_some (p : ParsedVersion) (kind k : Str) (n : Nat)
    (hpre : p.prerelease = some (k, n)) :
    nextPreNum p kind = if k = kind then n + 1 else 1 := by
  unfold nextPreNum
  rw [hpre]

theorem cnv_pre_generic (p : ParsedVersion) (letter kind s : Str)
    (h : (do let num ← preNumFor p kind
             Except.ok (tripleStr p.major p.minor p.patch ++ letter ++ u32Repr num) :
           Except Str Str) = .ok s) :
    s = tripleStr p.major p.minor p.patch ++ letter ++ u32Repr (nextPreNum p kind) := by
  rcases hpre : p.prerelease with - | ⟨k, n⟩
  · rw [preNumFor_none p kind hpre, exbind_ok] at h
    injection h with h2
    rw [nextPreNum_none p kind hpre, ← h2]
  · rw [preNumFor_some p kind k n hpre] at h
    rw [nextPreNum_some p kind k n hpre]
    by_cases hk : k = kind
    · rw [if_pos hk] at h
      rw [if_pos hk]
      unfold u32add1 at h
      by_cases hbound : n + 1 ≤ u32MAX
      · rw [if_pos hbound, exbind_ok] at h
        injection h with h2
        rw [← h2]
      · rw [if_neg hbound, exbind_err] at h
        exact absurd h (by simp)
    · rw [if_neg hk, exbind_ok] at h
      injection h with h2
      rw [if_neg hk, ← h2]

/- ===== claim C2 ===== -/

/-- C2: when the parsed version carries any suffix (pre-release, post or
dev), bumping with `patch` drops every suffix and keeps the numeric
major.minor.patch; when no suffix is present, it increments patch by one
with major and minor unchanged. -/
theorem C2_bump_patch (v : Str) (p : ParsedVersion) (h : parse_version v = .ok p) :
    ((p.prerelease.isSome || p.post.isSome || p.dev.isSome) = true →
      compute_new_version v "patch".toList = .ok (tripleStr p.major p.minor p.patch)) ∧
    ((p.prerelease.isSome || p.post.isSome || p.dev.isSome) = false → p.patch < u32MAX →
      compute_new_version v "patch".toList = .ok (tripleStr p.major p.minor (p.patch + 1))) := by
  rw [cnv_ok h, cnvBody_patch]
  constructor
  · intro hs
    rw [if_pos hs]
  · intro hs hlt
    rw [if_neg (by rw [hs]; exact Bool.noConfusion), u32add1_ok hlt, exbind_ok]

/-- C2 witness: the two branches evaluated at `1.2.3a1` and `1.2.3`. -/
theorem C2_bump_patch_witness :
    compute_new_version "1.2.3a1".toList "patch".toList = .ok (tripleStr 1 2 3) ∧
    compute_new_version "1.2.3".toList "patch".toList = .ok (tripleStr 1 2 (3 + 1)) :=
  ⟨(C2_bump_patch ("1.2.3a1".toList)
      { major := 1, minor := 2, patch := 3, prerelease := some ("alpha".toList, 1) }
      (by decide)).1 (by decide),
   (C2_bump_patch ("1.2.3".toList)
      { major := 1, minor := 2, patch := 3 }
      (by decide)).2 (by decide) (by decide)⟩

/- ===== claim C6 ===== -/

/-- C6: bumping with an alpha, beta or rc keyword increments the pre-release
number when the current kind equals the requested kind and otherwise resets
it to one; concretely, bumping `1.2.3` with alpha gives `1.2.3a1`, bumping
that result with alpha again gives `1.2.3a2`, and bumping `1.2.3a1` with
beta gives `1.2.3b1`. -/
theorem C6_bump_prerelease_keywords :
    (∀ (v : Str) (p : ParsedVersion) (s : Str), parse_version v = .ok p →
      ((compute_new_version v "alpha".toList = .ok s →
          s = tripleStr p.major p.minor p.patch ++ "a".toList
                ++ u32Repr (nextPreNum p "alpha".toList)) ∧
       (compute_new_version v "beta".toList = .ok s →
          s = tripleStr p.major p.minor p.patch ++ "b".toList
                ++ u32Repr (nextPreNum p "beta".toList)) ∧
       (compute_new_version v "rc".toList = .ok s →
          s = tripleStr p.major p.minor p.patch ++ "rc".toList
                ++ u32Repr (nextPreNum p "rc".toList)))) ∧
    compute_new_version "1.2.3".toList "alpha".toList = .ok "1.2.3a1".toList ∧
    compute_new_version "1.2.3a1".toList "alpha".toList = .ok "1.2.3a2".toList ∧
    compute_new_version "1.2.3a1".toList "beta".toList = .ok "1.2.3b1".toList := by
  refine ⟨?_, by decide, by decide, by decide⟩
  intro v p s h
  refine ⟨?_, ?_, ?_⟩
  · rw [cnv_ok h, cnvBody_alpha]
    exact cnv_pre_generic p ("a".toList) ("alpha".toList) s
  · rw [cnv_ok h, cnvBody_beta]
    exact cnv_pre_generic p ("b".toList) ("beta".toList) s
  · rw [cnv_ok h, cnvBody_rc]
    exact cnv_pre_generic p ("rc".toList) ("rc".toList) s

/-- C6 witness: the general clause applied to the concrete kind switch from
beta to alpha on `1.2.3b1`. -/
theorem C6_bump_prerelease_keywords_witness :
    "1.2.3a1".toList =
      tripleStr 1 2 3 ++ "a".toList
        ++ u32Repr (nextPreNum
            { major := 1, minor := 2, patch := 3, prerelease := some ("beta".toList, 1) }
            ("alpha".toList)) :=
  (C6_bump_prerelease_keywords.1 ("1.2.3b1".toList)
    { major := 1, minor := 2, patch := 3, prerelease := some ("beta".toList, 1) }
    ("1.2.3a1".toList) (by decide)).1 (by decide)

/- ===== claim C9 ===== -/

/-- C9 (amended): in the bumper's pre-release scan only each marker's first
occurrence is examined; that occurrence is treated as a pre-release boundary
exactly when a preceding character exists and is a dot or an ASCII digit; an
occurrence with no preceding character, or preceded by any other character,
is never taken as a pre-release. -/
theorem C9_bump_boundary_rule :
    (∀ before : Str, bumpBoundaryOk before = true ↔
      ∃ ch, before.getLast? = some ch ∧ (ch = '.' ∨ isDig ch = true)) ∧
    (∀ (version marker kind : Str) (rest : List (Str × Str)) (pos : Nat),
      firstIdx marker version = some pos →
      (bumpBoundaryOk (version.take pos) = false →
        findPreGo version ((marker, kind) :: rest) = findPreGo version rest) ∧
      (bumpBoundaryOk (version.take pos) = true →
        findPreGo version ((marker, kind) :: rest) =
          some (kind,
            (parseU32 ((version.drop (pos + marker.length)).takeWhile isDig)).getD 0,
            version.take pos))) := by
  constructor
  · intro before
    unfold bumpBoundaryOk
    rcases h : before.getLast? with - | c
    · simp
    · simp
  · intro version marker kind rest pos h
    constructor
    · intro hb
      simp only [findPreGo]
      rw [h]
      exact if_neg (fun hc => by rw [hb] at hc; exact Bool.noConfusion hc)
    · intro hb
      simp only [findPreGo]
      rw [h]
      exact if_pos hb

/-- C9 witness: the boundary clause applied where the marker `a` sits at the
very start of the scanned string, so the scan skips it. -/
theorem C9_bump_boundary_rule_witness :
    findPreGo ("a1".toList) [("a".toList, "alpha".toList)] = findPreGo ("a1".toList) [] :=
  (C9_bump_boundary_rule.2 ("a1".toList) ("a".toList) ("alpha".toList) [] 0
    (by decide)).1 (by decide)

/- ===== reparse lemmas for the bumper output ===== -/

theorem parseComp_ok {p : Str} {n : Nat} (name : Str) (h : parseU32 p = some n) :
    parseComp name p = .ok n := by
  unfold parseComp
  rw [h]

theorem parseComp_err {p : Str} (name : Str) (h : parseU32 p = none) :
    parseComp name p = .error ("Invalid ".toList ++ name ++ " version: ".toList ++ p) := by
  unfold parseComp
  rw [h]

theorem u32Repr_dotfree (n : Nat) : '.' ∉ u32Repr n := by
  intro hmem
  exact absurd (u32Repr_all_isDig n '.' hmem) (by decide)

theorem tripleStr_flat (a b c : Nat) :
    tripleStr a b c = u32Repr a ++ '.' :: (u32Repr b ++ '.' :: u32Repr c) := by
  simp [tripleStr]

theorem splitOnDot_tripleStr (a b c : Nat) :
    splitOnDot (tripleStr a b c) = [u32Repr a, u32Repr b, u32Repr c] := by
  rw [tripleStr_flat, splitOnDot_append_dot _ (u32Repr_dotfree a),
    splitOnDot_append_dot _ (u32Repr_dotfree b), splitOnDot_dotfree (u32Repr_dotfree c)]

theorem tripleStr_chars (a b c : Nat) :
    ∀ ch ∈ tripleStr a b c, isDig ch = true ∨ ch = '.' := by
  intro ch hch
  rw [tripleStr_flat] at hch
  simp only [List.mem_append, List.mem_cons] at hch
  rcases hch with h1 | h1 | h1
  · exact Or.inl (u32Repr_all_isDig a ch h1)
  · exact Or.inr h1
  · rcases h1 with h2 | h2 | h2
    · exact Or.inl (u32Repr_all_isDig b ch h2)
    · exact Or.inr h2
    · exact Or.inl (u32Repr_all_isDig c ch h2)

theorem parseMMP_triple (vctx : Str) {a b c : Nat}
    (ha : a ≤ u32MAX) (hb : b ≤ u32MAX) (hc : c ≤ u32MAX)
    (pre : Option (Str × Nat)) (post dev : Option Nat) :
    parseMMP vctx (tripleStr a b c) pre post dev =
      .ok { major := a, minor := b, patch := c,
            prerelease := pre, post := post, dev := dev } := by
  simp only [parseMMP]
  rw [splitOnDot_tripleStr]
  rw [if_neg (by simp)]
  simp only [List.getD_cons_zero, List.getD_cons_succ]
  rw [parseComp_ok _ (parseU32_u32Repr ha), exbind_ok,
    parseComp_ok _ (parseU32_u32Repr hb), exbind_ok,
    parseComp_ok _ (parseU32_u32Repr hc), exbind_ok]

theorem parseMMP_bounds {vctx rel : Str} {pre : Option (Str × Nat)} {post dev : Option Nat}
    {p : ParsedVersion} (h : parseMMP vctx rel pre post dev = .ok p) :
    p.major ≤ u32MAX ∧ p.minor ≤ u32MAX ∧ p.patch ≤ u32MAX ∧
      p.prerelease = pre ∧ p.post = post ∧ p.dev = dev := by
  simp only [parseMMP] at h
  by_cases hne : splitOnDot rel = []
  · rw [if_pos hne] at h
    exact absurd h (by simp)
  · rw [if_neg hne] at h
    rcases h0 : parseU32 ((splitOnDot rel).getD 0 []) with - | n0
    · rw [parseComp_err _ h0, exbind_err] at h
      exact absurd h (by simp)
    · rw [parseComp_ok _ h0, exbind_ok] at h
      rcases h1 : parseU32 ((splitOnDot rel).getD 1 "0".toList) with - | n1
      · rw [parseComp_err _ h1, exbind_err] at h
        exact absurd h (by simp)
      · rw [parseComp_ok _ h1, exbind_ok] at h
        rcases h2 : parseU32 ((splitOnDot rel).getD 2 "0".toList) with - | n2
        · rw [parseComp_err _ h2, exbind_err] at h
          exact absurd h (by simp)
        · rw [parseComp_ok _ h2, exbind_ok] at h
          injection h with h3
          rw [← h3]
          exact ⟨parseU32_le h0, parseU32_le h1, parseU32_le h2, rfl, rfl, rfl⟩

theorem parse_version_digitdot {s : Str} (h : ∀ ch ∈ s, isDig ch = true ∨ ch = '.') :
    parse_version s = parseMMP s s none none none := by
  have hnm : ∀ ch : Char, isDig ch = false → ch ≠ '.' → ch ∉ s := by
    intro ch hd hdot hmem
    rcases h ch hmem with h1 | h1
    · rw [h1] at hd
      exact Bool.noConfusion hd
    · exact hdot h1
  have hlower : lowerStr s = s := lowerStr_fixed (fun c hc => by
    rcases h c hc with h1 | h1
    · exact lowerChar_isDig h1
    · rw [h1]; decide)
  have hep : stripEpoch s = s := by
    unfold stripEpoch
    rw [(findChar_none_iff '!' s).mpr (hnm '!' (by decide) (by decide))]
  have hlo : stripLocal s = s := by
    unfold stripLocal
    rw [(findChar_none_iff '+' s).mpr (hnm '+' (by decide) (by decide))]
  have hv1 : stripLocal (stripEpoch (lowerStr s)) = s := by
    rw [hlower, hep, hlo]
  have hdev : devSplit s = (s, none) := by
    unfold devSplit
    rw [firstIdx_none_of_not_mem (show 'd' ∈ ".dev".toList by decide)
        (hnm 'd' (by decide) (by decide)),
      firstIdx_none_of_not_mem (show 'd' ∈ "dev".toList by decide)
        (hnm 'd' (by decide) (by decide))]
  have hpost : postSplit s = (s, none) := by
    unfold postSplit
    rw [firstIdx_none_of_not_mem (show 'p' ∈ ".post".toList by decide)
        (hnm 'p' (by decide) (by decide)),
      firstIdx_none_of_not_mem (show 'p' ∈ "post".toList by decide)
        (hnm 'p' (by decide) (by decide))]
  have hpre : preSplit s = (none, s) := by
    unfold preSplit
    rw [findPreGo_none ?hmarks]
    case hmarks =>
      intro mk hmk
      simp only [bumpPreMarkers, List.mem_cons, List.not_mem_nil, or_false] at hmk
      rcases hmk with rfl | rfl | rfl | rfl | rfl | rfl | rfl
      · exact firstIdx_none_of_not_mem (show 'a' ∈ "alpha".toList by decide)
          (hnm 'a' (by decide) (by decide))
      · exact firstIdx_none_of_not_mem (show 'b' ∈ "beta".toList by decide)
          (hnm 'b' (by decide) (by decide))
      · exact firstIdx_none_of_not_mem (show 'r' ∈ "preview".toList by decide)
          (hnm 'r' (by decide) (by decide))
      · exact firstIdx_none_of_not_mem (show 'r' ∈ "rc".toList by decide)
          (hnm 'r' (by decide) (by decide))
      · exact firstIdx_none_of_not_mem (show 'a' ∈ "a".toList by decide)
          (hnm 'a' (by decide) (by decide))
      · exact firstIdx_none_of_not_mem (show 'b' ∈ "b".toList by decide)
          (hnm 'b' (by decide) (by decide))
      · exact firstIdx_none_of_not_mem (show 'c' ∈ "c".toList by decide)
          (hnm 'c' (by decide) (by decide))
  have hdash : dashSplit none s = (none, s) := by
    unfold dashSplit
    rw [firstIdx_none_of_not_mem (show '-' ∈ "-".toList by decide)
      (hnm '-' (by decide) (by decide))]
  simp only [parse_version, hv1]
  rw [show (devSplit s).1 = s by rw [hdev], show (devSplit s).2 = none by rw [hdev]]
  rw [show (postSplit s).1 = s by rw [hpost], show (postSplit s).2 = none by rw [hpost]]
  rw [show (preSplit s).1 = none by rw [hpre], show (preSplit s).2 = s by rw [hpre]]
  rw [show (dashSplit none s).1 = none by rw [hdash], show (dashSplit none s).2 = s by rw [hdash]]

theorem parse_tripleStr {a b c : Nat} (ha : a ≤ u32MAX) (hb : b ≤ u32MAX) (hc : c ≤ u32MAX) :
    parse_version (tripleStr a b c) =
      .ok { major := a, minor := b, patch := c } := by
  rw [parse_version_digitdot (tripleStr_chars a b c)]
  exact parseMMP_triple _ ha hb hc none none none

theorem parse_version_fields {v : Str} {p : ParsedVersion} (h : parse_version v = .ok p) :
    p.major ≤ u32MAX ∧ p.minor ≤ u32MAX ∧ p.patch ≤ u32MAX := by
  simp only [parse_version] at h
  obtain ⟨h1, h2, h3, -, -, -⟩ := parseMMP_bounds h
  exact ⟨h1, h2, h3⟩

/- ===== claim C7 ===== -/

theorem releaseTriple_of_parse {s : Str} {p : ParsedVersion} (h : parse_version s = .ok p) :
    releaseTriple s = some (p.major, p.minor, p.patch) := by
  unfold releaseTriple
  rw [h]

/-- C7: whenever bumping succeeds, the release triple of `bump(v, major)` is
lexicographically strictly above that of `v`; the same holds for `minor`
with major unchanged, and for `patch` when `v` carries no suffix. -/
theorem C7_bump_monotonic (v : Str) (p : ParsedVersion) (h : parse_version v = .ok p) :
    (∀ s, compute_new_version v "major".toList = .ok s →
      releaseTriple s = some (p.major + 1, 0, 0) ∧
      lexLt (p.major, p.minor, p.patch) (p.major + 1, 0, 0)) ∧
    (∀ s, compute_new_version v "minor".toList = .ok s →
      releaseTriple s = some (p.major, p.minor + 1, 0) ∧
      lexLt (p.major, p.minor, p.patch) (p.major, p.minor + 1, 0)) ∧
    (p.prerelease = none → p.post = none → p.dev = none →
      ∀ s, compute_new_version v "patch".toList = .ok s →
      releaseTriple s = some (p.major, p.minor, p.patch + 1) ∧
      lexLt (p.major, p.minor, p.patch) (p.major, p.minor, p.patch + 1)) := by
  obtain ⟨hma, hmi, hpa⟩ := parse_version_fields h
  refine ⟨?_, ?_, ?_⟩
  · intro s hs
    rw [cnv_ok h, cnvBody_major] at hs
    unfold u32add1 at hs
    by_cases hbound : p.major + 1 ≤ u32MAX
    · rw [if_pos hbound, exbind_ok] at hs
      injection hs with hs2
      subst hs2
      refine ⟨?_, Or.inl (Nat.lt_succ_self p.major)⟩
      rw [releaseTriple_of_parse (parse_tripleStr hbound (by decide) (by decide))]
    · rw [if_neg hbound, exbind_err] at hs
      exact absurd hs (by simp)
  · intro s hs
    rw [cnv_ok h, cnvBody_minor] at hs
    unfold u32add1 at hs
    by_cases hbound : p.minor + 1 ≤ u32MAX
    · rw [if_pos hbound, exbind_ok] at hs
      injection hs with hs2
      subst hs2
      refine ⟨?_, Or.inr ⟨rfl, Or.inl (Nat.lt_succ_self p.minor)⟩⟩
      rw [releaseTriple_of_parse (parse_tripleStr hma hbound (by decide))]
    · rw [if_neg hbound, exbind_err] at hs
      exact absurd hs (by simp)
  · intro hp1 hp2 hp3 s hs
    rw [cnv_ok h, cnvBody_patch] at hs
    rw [if_neg (by simp [hp1, hp2, hp3])] at hs
    unfold u32add1 at hs
    by_cases hbound : p.patch + 1 ≤ u32MAX
    · rw [if_pos hbound, exbind_ok] at hs
      injection hs with hs2
      subst hs2
      refine ⟨?_, Or.inr ⟨rfl, Or.inr ⟨rfl, Nat.lt_succ_self p.patch⟩⟩⟩
      rw [releaseTriple_of_parse (parse_tripleStr hma hmi hbound)]
    · rw [if_neg hbound, exbind_err] at hs
      exact absurd hs (by simp)

/-- C7 witness: the patch clause evaluated at the suffix-free `1.2.3`. -/
theorem C7_bump_monotonic_witness :
    releaseTriple "1.2.4".toList = some (1, 2, 3 + 1) ∧
      lexLt (1, 2, 3) (1, 2, 3 + 1) :=
  (C7_bump_monotonic ("1.2.3".toList) { major := 1, minor := 2, patch := 3 }
    (by decide)).2.2 rfl rfl rfl ("1.2.4".toList) (by decide)

/- ===== claim C5 ===== -/

theorem digitdot_not_mem {s : Str} (h : ∀ ch ∈ s, isDig ch = true ∨ ch = '.')
    {ch : Char} (hd : isDig ch = false) (hdot : ch ≠ '.') : ch ∉ s := by
  intro hmem
  rcases h ch hmem with h1 | h1
  · rw [h1] at hd
    exact Bool.noConfusion hd
  · exact hdot h1

theorem lowerStr_digitdot {s : Str} (h : ∀ ch ∈ s, isDig ch = true ∨ ch = '.') :
    lowerStr s = s :=
  lowerStr_fixed (fun c hc => by
    rcases h c hc with h1 | h1
    · exact lowerChar_isDig h1
    · rw [h1]; decide)

theorem find_release_end_digitdot {s : Str} (h : ∀ ch ∈ s, isDig ch = true ∨ ch = '.') :
    find_release_end s = s.length := by
  unfold find_release_end
  apply foldl_fixed
  intro m hm acc
  have hnone : firstIdx m s = none := by
    simp only [releaseEndMarkers, List.mem_cons, List.not_mem_nil, or_false] at hm
    rcases hm with rfl | rfl | rfl | rfl | rfl | rfl | rfl | rfl | rfl | rfl
    · exact firstIdx_none_of_not_mem (show 'a' ∈ "a".toList by decide)
        (digitdot_not_mem h (by decide) (by decide))
    · exact firstIdx_none_of_not_mem (show 'b' ∈ "b".toList by decide)
        (digitdot_not_mem h (by decide) (by decide))
    · exact firstIdx_none_of_not_mem (show 'c' ∈ "c".toList by decide)
        (digitdot_not_mem h (by decide) (by decide))
    · exact firstIdx_none_of_not_mem (show 'a' ∈ "alpha".toList by decide)
        (digitdot_not_mem h (by decide) (by decide))
    · exact firstIdx_none_of_not_mem (show 'b' ∈ "beta".toList by decide)
        (digitdot_not_mem h (by decide) (by decide))
    · exact firstIdx_none_of_not_mem (show 'p' ∈ "preview".toList by decide)
        (digitdot_not_mem h (by decide) (by decide))
    · exact firstIdx_none_of_not_mem (show 'r' ∈ "rc".toList by decide)
        (digitdot_not_mem h (by decide) (by decide))
    · exact firstIdx_none_of_not_mem (show 'p' ∈ ".post".toList by decide)
        (digitdot_not_mem h (by decide) (by decide))
    · exact firstIdx_none_of_not_mem (show 'd' ∈ ".dev".toList by decide)
        (digitdot_not_mem h (by decide) (by decide))
    · exact firstIdx_none_of_not_mem (show '-' ∈ "-".toList by decide)
        (digitdot_not_mem h (by decide) (by decide))
  rw [hnone]

theorem strippedSimple_digitdot {s : Str} (h : ∀ ch ∈ s, isDig ch = true ∨ ch = '.') :
    strippedSimple s = s := by
  unfold strippedSimple
  have hep : stripEpoch s = s := by
    unfold stripEpoch
    rw [(findChar_none_iff '!' _).mpr (digitdot_not_mem h (by decide) (by decide))]
  have hlo : stripLocal s = s := by
    unfold stripLocal
    rw [(findChar_none_iff '+' _).mpr (digitdot_not_mem h (by decide) (by decide))]
  rw [lowerStr_digitdot h, hep, hlo]

/-- C5 counterexample is `C5_counterexample_overflow` above; the amended
claim bounds the components by the `u32` range. -/
theorem C5_strict_roundtrip (a b c : Nat)
    (ha : a ≤ u32MAX) (hb : b ≤ u32MAX) (hc : c ≤ u32MAX) :
    validate_simple (tripleStr a b c) = .ok () ∧
    cast_to_simple (tripleStr a b c) = .ok (tripleStr a b c) := by
  have hchars := tripleStr_chars a b c
  constructor
  · simp only [validate_simple]
    rw [splitOnDot_tripleStr]
    rw [if_neg (by simp)]
    refine (checkSimpleParts_ok_iff 0 _).mpr ?_
    intro p hp
    simp only [List.mem_cons, List.not_mem_nil, or_false] at hp
    rcases hp with rfl | rfl | rfl
    · rw [parseU32_u32Repr ha]; rfl
    · rw [parseU32_u32Repr hb]; rfl
    · rw [parseU32_u32Repr hc]; rfl
  · have hstr := strippedSimple_digitdot hchars
    have hparts : simpleReleaseParts (tripleStr a b c) =
        [u32Repr a, u32Repr b, u32Repr c] := by
      simp only [simpleReleaseParts, hstr, find_release_end_digitdot hchars, List.take_length]
      exact splitOnDot_tripleStr a b c
    simp only [cast_to_simple, hstr, hparts]
    rw [if_neg (by simp)]
    have hfind : ([u32Repr a, u32Repr b, u32Repr c].find?
        (fun p => (parseU32 p).isNone)) = none := by
      rw [List.find?_eq_none]
      intro x hx
      simp only [List.mem_cons, List.not_mem_nil, or_false] at hx
      rcases hx with rfl | rfl | rfl
      · rw [parseU32_u32Repr ha]; simp
      · rw [parseU32_u32Repr hb]; simp
      · rw [parseU32_u32Repr hc]; simp
    rw [hfind]
    simp only [List.getD_cons_zero, List.getD_cons_succ]
    rfl

/-- C5 witness: the amended round trip evaluated at `1.2.3`. -/
theorem C5_strict_roundtrip_witness :
    validate_simple (tripleStr 1 2 3) = .ok () ∧
    cast_to_simple (tripleStr 1 2 3) = .ok (tripleStr 1 2 3) :=
  C5_strict_roundtrip 1 2 3 (by decide) (by decide) (by decide)

/- ===== claim C1 ===== -/

theorem getD_mem_or (l : List Str) (i : Nat) (d : Str) : l.getD i d ∈ l ∨ l.getD i d = d := by
  rcases h : l[i]? with - | x
  · right
    simp [List.getD_eq_getElem?_getD, h]
  · left
    have hx := List.getElem?_mem h
    have : l.getD i d = x := by simp [List.getD_eq_getElem?_getD, h]
    rw [this]
    exact hx

theorem strippedSimple_no_plus (v : Str) : '+' ∉ strippedSimple v := by
  unfold strippedSimple stripLocal
  rcases hf : findChar '+' (stripEpoch (lowerStr v)) with - | pos
  · exact (findChar_none_iff _ _).mp hf
  · exact findChar_some_not_mem_take hf

/-- C1 (amended): whenever every release component located by the caster's
own boundary search parses as a `u32` — which covers arbitrary epochs,
local segments and suffixes in the spellings the search knows, but not the
bare undotted post/dev spellings — the Strict cast succeeds and its result
is exactly three dot-separated nonempty all-digit groups. -/
theorem C1_cast_strict_shape (v : Str)
    (H : ∀ p ∈ simpleReleaseParts v, (parseU32 p).isSome = true) :
    exceptIsOk (cast_to_simple v) = true ∧
    ∀ s, cast_to_simple v = .ok s →
      (splitOnDot s).length = 3 ∧
      ∀ g ∈ splitOnDot s, g ≠ [] ∧ allDigits g = true := by
  have hne : simpleReleaseParts v ≠ [] := by
    unfold simpleReleaseParts
    exact splitOnDot_ne_nil _
  have hfind : ((simpleReleaseParts v).find? (fun p => (parseU32 p).isNone)) = none := by
    rw [List.find?_eq_none]
    intro x hx hcontra
    have h1 := H x hx
    rcases hpx : parseU32 x with - | n
    · rw [hpx] at h1
      exact Bool.noConfusion h1
    · rw [hpx] at hcontra
      exact Bool.noConfusion hcontra
  have hcast : cast_to_simple v = .ok
      ((simpleReleaseParts v).getD 0 "0".toList ++ ".".toList ++
        (simpleReleaseParts v).getD 1 "0".toList ++ ".".toList ++
        (simpleReleaseParts v).getD 2 "0".toList) := by
    simp only [cast_to_simple]
    rw [if_neg hne, hfind]
  have hprops : ∀ i, (simpleReleaseParts v).getD i "0".toList ≠ [] ∧
      allDigits ((simpleReleaseParts v).getD i "0".toList) = true ∧
      '.' ∉ (simpleReleaseParts v).getD i "0".toList := by
    intro i
    rcases getD_mem_or (simpleReleaseParts v) i ("0".toList) with hmem | heq
    · have hchar : ∀ c ∈ (simpleReleaseParts v).getD i "0".toList,
          c ∈ strippedSimple v ∧ c ≠ '.' := by
        intro c hcm
        have h2 := splitOnDot_chars ((simpleReleaseParts v).getD i "0".toList) hmem c hcm
        exact ⟨(List.take_sublist _ _).subset h2.1, h2.2⟩
      have hplus : '+' ∉ (simpleReleaseParts v).getD i "0".toList := fun hc =>
        strippedSimple_no_plus v (hchar '+' hc).1
      obtain ⟨n, hn⟩ := Option.isSome_iff_exists.mp (H _ hmem)
      obtain ⟨h1, h2⟩ := parseU32_digits hplus hn
      exact ⟨h1, h2, fun hdot => (hchar '.' hdot).2 rfl⟩
    · rw [heq]
      exact ⟨by decide, by decide, by decide⟩
  obtain ⟨g0ne, g0dig, g0dot⟩ := hprops 0
  obtain ⟨g1ne, g1dig, g1dot⟩ := hprops 1
  obtain ⟨g2ne, g2dig, g2dot⟩ := hprops 2
  refine ⟨by rw [hcast]; rfl, ?_⟩
  intro s hs
  rw [hcast] at hs
  injection hs with hs2
  subst hs2
  have hflat : ((simpleReleaseParts v).getD 0 "0".toList ++ ".".toList ++
      (simpleReleaseParts v).getD 1 "0".toList ++ ".".toList ++
      (simpleReleaseParts v).getD 2 "0".toList : Str) =
      (simpleReleaseParts v).getD 0 "0".toList ++ '.' ::
        ((simpleReleaseParts v).getD 1 "0".toList ++ '.' ::
          (simpleReleaseParts v).getD 2 "0".toList) := by
    simp
  rw [hflat, splitOnDot_append_dot _ g0dot, splitOnDot_append_dot _ g1dot,
    splitOnDot_dotfree g2dot]
  refine ⟨rfl, ?_⟩
  intro g hg
  simp only [List.mem_cons, List.not_mem_nil, or_false] at hg
  rcases hg with rfl | rfl | rfl
  · exact ⟨g0ne, g0dig⟩
  · exact ⟨g1ne, g1dig⟩
  · exact ⟨g2ne, g2dig⟩

/-- C1 witness: the amended claim evaluated at the end-to-end input
`1!1.2.3a1.post1.dev1+local`, which carries every dotted suffix. -/
theorem C1_cast_strict_shape_witness :
    exceptIsOk (cast_to_simple "1!1.2.3a1.post1.dev1+local".toList) = true ∧
    ((splitOnDot "1.2.3".toList).length = 3 ∧
      ∀ g ∈ splitOnDot "1.2.3".toList, g ≠ [] ∧ allDigits g = true) :=
  ⟨(C1_cast_strict_shape ("1!1.2.3a1.post1.dev1+local".toList) (by decide)).1,
   (C1_cast_strict_shape ("1!1.2.3a1.post1.dev1+local".toList) (by decide)).2
     ("1.2.3".toList) (by decide)⟩

/- ===== claim C4 ===== -/

theorem mem_splitOnDot_cover {s : Str} : ∀ c ∈ s, c = '.' ∨ ∃ p ∈ splitOnDot s, c ∈ p := by
  induction s with
  | nil => simp
  | cons d rest ih =>
    intro c hc
    rcases List.mem_cons.mp hc with rfl | hc2
    · by_cases hd : c = '.'
      · exact Or.inl hd
      · right
        simp only [splitOnDot]
        rw [if_neg hd]
        rcases hrec : splitOnDot rest with - | ⟨q, qs⟩
        · exact absurd hrec (splitOnDot_ne_nil rest)
        · exact ⟨c :: q, List.mem_cons_self _ _, List.mem_cons_self _ _⟩
    · rcases ih c hc2 with h1 | ⟨p, hp, hcp⟩
      · exact Or.inl h1
      · right
        simp only [splitOnDot]
        by_cases hd : d = '.'
        · rw [if_pos hd]
          exact ⟨p, List.mem_cons_of_mem _ hp, hcp⟩
        · rw [if_neg hd]
          rcases hrec : splitOnDot rest with - | ⟨q, qs⟩
          · exact absurd hrec (splitOnDot_ne_nil rest)
          · rw [hrec] at hp
            rcases List.mem_cons.mp hp with rfl | hp2
            · exact ⟨d :: p, List.mem_cons_self _ _, List.mem_cons_of_mem _ hcp⟩
            · exact ⟨p, List.mem_cons_of_mem _ hp2, hcp⟩

theorem not_prefix_cons_ne {a b : Char} {t u : Str} (h : a ≠ b) : ¬ (a :: t) <+: (b :: u) := by
  rintro ⟨w, hw⟩
  rw [List.cons_append] at hw
  injection hw with h1 h2
  exact h h1

theorem not_prefix_cons2_ne {a b c d : Char} {t u : Str} (h : a ≠ b) :
    ¬ (c :: a :: t) <+: (d :: b :: u) := by
  rintro ⟨w, hw⟩
  simp only [List.cons_append] at hw
  injection hw with h1 hw2
  injection hw2 with h2 hw3
  exact h h2

theorem dotted_tail_ne_nil (rest N : Str) : ('.' :: rest) ++ N ≠ [] := by
  intro h
  exact List.noConfusion h

theorem valMarkerStep_none {S : Str} {acc : Option Nat} {m : Str}
    (h : firstIdx m S = none) : valMarkerStep S acc m = acc := by
  unfold valMarkerStep
  rw [h]

theorem pre_markers_none {S : Str}
    (ha : 'a' ∉ S) (hb : 'b' ∉ S) (hc : 'c' ∉ S) (hr : 'r' ∉ S) :
    ∀ m ∈ ["alpha".toList, "beta".toList, "preview".toList, "rc".toList,
           "a".toList, "b".toList, "c".toList], firstIdx m S = none := by
  intro m hm
  simp only [List.mem_cons, List.not_mem_nil, or_false] at hm
  rcases hm with rfl | rfl | rfl | rfl | rfl | rfl | rfl
  · exact firstIdx_none_of_not_mem (show 'a' ∈ "alpha".toList by decide) ha
  · exact firstIdx_none_of_not_mem (show 'b' ∈ "beta".toList by decide) hb
  · exact firstIdx_none_of_not_mem (show 'r' ∈ "preview".toList by decide) hr
  · exact firstIdx_none_of_not_mem (show 'r' ∈ "rc".toList by decide) hr
  · exact firstIdx_none_of_not_mem (show 'a' ∈ "a".toList by decide) ha
  · exact firstIdx_none_of_not_mem (show 'b' ∈ "b".toList by decide) hb
  · exact firstIdx_none_of_not_mem (show 'c' ∈ "c".toList by decide) hc

theorem firstIdx_dotted_marker (c1 : Char) {pre mk suf : Str}
    (hmklen : 1 < mk.length)
    (hmk0 : mk[0]? = some '.') (hmk1 : mk[1]? = some c1) (hc1 : c1 ≠ '.')
    (hpre : ∀ d ∈ pre, isDig d = true ∨ d = '.')
    (hc1dig : isDig c1 = false) :
    firstIdx mk (pre ++ mk ++ suf) = some pre.length := by
  rw [List.append_assoc, firstIdx_some_iff]
  constructor
  · rw [List.drop_left]
    exact ⟨suf, rfl⟩
  · intro j hj hp
    have h2 := prefix_getElem hp hmklen
    rw [List.getElem?_drop] at h2
    rw [hmk1] at h2
    by_cases hcase : j + 1 < pre.length
    · rw [List.getElem?_append_left hcase] at h2
      have hd := List.getElem?_mem h2
      rcases hpre c1 hd with hh | hh
      · rw [hh] at hc1dig
        exact Bool.noConfusion hc1dig
      · exact hc1 hh
    · have hle : pre.length ≤ j + 1 := by omega
      rw [List.getElem?_append_right hle] at h2
      have hj1 : j + 1 - pre.length = 0 := by omega
      rw [hj1] at h2
      rw [List.getElem?_append_left (by omega : 0 < mk.length)] at h2
      rw [hmk0] at h2
      injection h2 with hh
      exact hc1 hh.symm

theorem split_at_prerelease_post {S rel tail : Str} (hS : S = rel ++ tail)
    (hmarks : ∀ m ∈ ["alpha".toList, "beta".toList, "preview".toList, "rc".toList,
        "a".toList, "b".toList, "c".toList], firstIdx m S = none)
    (hpostIdx : firstIdx ".post".toList S = some rel.length)
    (hdevIdx : firstIdx ".dev".toList S = none) :
    split_at_prerelease S = (rel, tail) := by
  simp only [split_at_prerelease]
  rw [foldl_fixed (fun m hm acc => valMarkerStep_none (hmarks m hm)), hpostIdx, hdevIdx]
  simp only [updEarliest]
  subst hS
  rw [List.take_left' rfl, List.drop_left' rfl]

theorem split_at_prerelease_dev {S rel tail : Str} (hS : S = rel ++ tail)
    (hmarks : ∀ m ∈ ["alpha".toList, "beta".toList, "preview".toList, "rc".toList,
        "a".toList, "b".toList, "c".toList], firstIdx m S = none)
    (hpostIdx : firstIdx ".post".toList S = none)
    (hdevIdx : firstIdx ".dev".toList S = some rel.length) :
    split_at_prerelease S = (rel, tail) := by
  simp only [split_at_prerelease]
  rw [foldl_fixed (fun m hm acc => valMarkerStep_none (hmarks m hm)), hpostIdx, hdevIdx]
  simp only [updEarliest]
  subst hS
  rw [List.take_left' rfl, List.drop_left' rfl]

theorem consumePre_dotted (tail : Str) :
    consumePre ('.' :: tail) = '.' :: tail := by
  unfold consumePre
  rw [show (sufPreMarkers.find? (fun m => m.isPrefixOf ('.' :: tail))) = none from ?_]
  rw [List.find?_eq_none]
  intro m hm hp
  have hp2 := prefix_bool_iff.mp hp
  simp only [sufPreMarkers, List.mem_cons, List.not_mem_nil, or_false] at hm
  rcases hm with rfl | rfl | rfl | rfl | rfl | rfl | rfl
  · exact not_prefix_cons_ne (by decide) hp2
  · exact not_prefix_cons_ne (by decide) hp2
  · exact not_prefix_cons_ne (by decide) hp2
  · exact not_prefix_cons_ne (by decide) hp2
  · exact not_prefix_cons_ne (by decide) hp2
  · exact not_prefix_cons_ne (by decide) hp2
  · exact not_prefix_cons_ne (by decide) hp2

theorem append_ne_nil_of_ne_nil {l : Str} (N : Str) (hs : l ≠ []) : l ++ N ≠ [] :=
  fun h => hs (List.append_eq_nil.mp h).1

theorem trimLeadChar_dotted (tail : Str) (c : Char) (hc : c ≠ '.') :
    trimLeadChar '.' ('.' :: c :: tail) = c :: tail := by
  simp only [trimLeadChar, if_true]
  rw [if_neg hc]

theorem parse_suffixes_dotted_post {N : Str} (hN : allDigits N = true) :
    parse_suffixes (".post".toList ++ N) = .ok () := by
  have hmk : ∀ d ∈ ".post".toList, lowerChar d = d := by decide
  have hml : ∀ d ∈ ".post".toList ++ N, lowerChar d = d := by
    intro d hd
    rcases List.mem_append.mp hd with h1 | h1
    · exact hmk d h1
    · exact lowerChar_isDig (by
        simp only [allDigits, List.all_eq_true] at hN
        exact hN d h1)
  have hcp : consumePre (".post".toList ++ N) = ".post".toList ++ N :=
    consumePre_dotted ("post".toList ++ N)
  have htrim : trimLeadChar '.' (".post".toList ++ N) = "post".toList ++ N :=
    trimLeadChar_dotted ("ost".toList ++ N) 'p' (by decide)
  have hstrip : trimLeadStr "post".toList ("post".toList ++ N) = N :=
    trimLeadStr_strip (by decide) (not_prefix_cons_digits (by decide) hN)
  have h1 : ".post".toList.isPrefixOf (".post".toList ++ N) = true :=
    prefix_bool_iff.mpr ⟨N, rfl⟩
  have hpostcond : (".post".toList.isPrefixOf (".post".toList ++ N)
      || "post".toList.isPrefixOf (".post".toList ++ N)) = true := by
    rw [h1, Bool.true_or]
  simp only [parse_suffixes]
  rw [if_neg (append_ne_nil_of_ne_nil N (by decide))]
  rw [lowerStr_fixed hml, hcp]
  rw [if_pos hpostcond]
  rw [htrim, hstrip, dropWhile_all_digits hN]
  decide

theorem parse_suffixes_dotted_dev {N : Str} (hN : allDigits N = true) :
    parse_suffixes (".dev".toList ++ N) = .ok () := by
  have hmk : ∀ d ∈ ".dev".toList, lowerChar d = d := by decide
  have hml : ∀ d ∈ ".dev".toList ++ N, lowerChar d = d := by
    intro d hd
    rcases List.mem_append.mp hd with h1 | h1
    · exact hmk d h1
    · exact lowerChar_isDig (by
        simp only [allDigits, List.all_eq_true] at hN
        exact hN d h1)
  have hcp : consumePre (".dev".toList ++ N) = ".dev".toList ++ N :=
    consumePre_dotted ("dev".toList ++ N)
  have htrim : trimLeadChar '.' (".dev".toList ++ N) = "dev".toList ++ N :=
    trimLeadChar_dotted ("ev".toList ++ N) 'd' (by decide)
  have hstrip : trimLeadStr "dev".toList ("dev".toList ++ N) = N :=
    trimLeadStr_strip (by decide) (not_prefix_cons_digits (by decide) hN)
  have hnopost : ¬ ((".post".toList.isPrefixOf (".dev".toList ++ N)
      || "post".toList.isPrefixOf (".dev".toList ++ N)) = true) := by
    intro hcond
    rcases Bool.or_eq_true_iff.mp hcond with h1 | h1
    · exact not_prefix_cons2_ne (by decide) (prefix_bool_iff.mp h1)
    · exact not_prefix_cons_ne (by decide) (prefix_bool_iff.mp h1)
  have h1 : ".dev".toList.isPrefixOf (".dev".toList ++ N) = true :=
    prefix_bool_iff.mpr ⟨N, rfl⟩
  have hdevcond : (".dev".toList.isPrefixOf (".dev".toList ++ N)
      || "dev".toList.isPrefixOf (".dev".toList ++ N)) = true := by
    rw [h1, Bool.true_or]
  simp only [parse_suffixes]
  rw [if_neg (append_ne_nil_of_ne_nil N (by decide))]
  rw [lowerStr_fixed hml, hcp]
  rw [if_neg hnopost]
  rw [if_pos hdevcond]
  rw [htrim, hstrip, dropWhile_all_digits hN]
  decide

/-- C4 (amended): the Extended validator accepts the dotted post and dev
spellings directly after the release digits: for every release made of
nonempty all-digit dot-segments and every digit string N, both
release + `.post` + N and release + `.dev` + N validate; the bare undotted
spellings directly after the release are rejected instead (see the
counterexample), because the suffix splitter searches only for the dotted
boundaries. -/
theorem C4_extended_dotted_post_dev (rel N : Str)
    (hrel : ∀ seg ∈ splitOnDot rel, seg ≠ [] ∧ allDigits seg = true)
    (hN : allDigits N = true) :
    validate_python (rel ++ ".post".toList ++ N) = .ok () ∧
    validate_python (rel ++ ".dev".toList ++ N) = .ok () := by
  have hNdig : ∀ c ∈ N, isDig c = true := by
    simp only [allDigits, List.all_eq_true] at hN
    exact hN
  have hrelne : rel ≠ [] := by
    intro h
    subst h
    exact (hrel [] (by simp [splitOnDot])).1 rfl
  have hrelchars : ∀ c ∈ rel, isDig c = true ∨ c = '.' := by
    intro c hc
    rcases mem_splitOnDot_cover c hc with h1 | ⟨p, hp, hcp⟩
    · exact Or.inr h1
    · have h2 := (hrel p hp).2
      simp only [allDigits, List.all_eq_true] at h2
      exact Or.inl (h2 c hcp)
  have hvalidrel : is_valid_release rel = true := by
    unfold is_valid_release
    rw [if_neg hrelne, List.all_eq_true]
    intro seg hseg
    rw [Bool.and_eq_true, decide_eq_true_eq]
    exact hrel seg hseg
  constructor
  · -- dotted .post after the release
    have hchars : ∀ c ∈ rel ++ ".post".toList ++ N, isDig c = true ∨ c ∈ ".post".toList := by
      intro c hc
      rcases List.mem_append.mp hc with h1 | h1
      · rcases List.mem_append.mp h1 with h2 | h2
        · rcases hrelchars c h2 with hd | hd
          · exact Or.inl hd
          · right; rw [hd]; decide
        · exact Or.inr h2
      · exact Or.inl (hNdig c h1)
    have hnot : ∀ ch : Char, isDig ch = false → ch ∉ ".post".toList →
        ch ∉ rel ++ ".post".toList ++ N := by
      intro ch h1 h2 hmem
      rcases hchars ch hmem with hh | hh
      · rw [hh] at h1
        exact Bool.noConfusion h1
      · exact h2 hh
    have hSne : rel ++ ".post".toList ++ N ≠ [] := by
      intro h
      rw [List.append_eq_nil, List.append_eq_nil] at h
      exact hrelne h.1.1
    have hmk : ∀ d ∈ ".post".toList, lowerChar d = d := by decide
    have hlower : lowerStr (rel ++ ".post".toList ++ N) = rel ++ ".post".toList ++ N :=
      lowerStr_fixed (fun c hc => by
        rcases hchars c hc with hd | hd
        · exact lowerChar_isDig hd
        · exact hmk c hd)
    have hsplitp : split_at_prerelease (rel ++ ".post".toList ++ N) =
        (rel, ".post".toList ++ N) := by
      refine split_at_prerelease_post (List.append_assoc _ _ _) ?_ ?_ ?_
      · exact pre_markers_none
          (hnot 'a' (by decide) (by decide)) (hnot 'b' (by decide) (by decide))
          (hnot 'c' (by decide) (by decide)) (hnot 'r' (by decide) (by decide))
      · exact firstIdx_dotted_marker 'p' (by decide) (by decide) (by decide) (by decide)
          hrelchars (by decide)
      · exact firstIdx_none_of_not_mem (show 'd' ∈ ".dev".toList by decide)
          (hnot 'd' (by decide) (by decide))
    have hval : validate_python (rel ++ ".post".toList ++ N) =
        pythonAfterEpoch (rel ++ ".post".toList ++ N) := by
      simp only [validate_python]
      rw [if_neg hSne, hlower,
        (findChar_none_iff '!' _).mpr (hnot '!' (by decide) (by decide))]
    have hafter : pythonAfterEpoch (rel ++ ".post".toList ++ N) =
        parse_main_version (rel ++ ".post".toList ++ N) := by
      simp only [pythonAfterEpoch]
      rw [(findChar_none_iff '+' _).mpr (hnot '+' (by decide) (by decide))]
    rw [hval, hafter]
    simp only [parse_main_version]
    rw [if_neg hSne]
    rw [show (split_at_prerelease (rel ++ ".post".toList ++ N)).1 = rel from by rw [hsplitp],
      show (split_at_prerelease (rel ++ ".post".toList ++ N)).2 = ".post".toList ++ N from by
        rw [hsplitp]]
    rw [if_neg (by
      intro hfalse
      rw [hvalidrel] at hfalse
      exact Bool.noConfusion hfalse)]
    rw [if_neg (append_ne_nil_of_ne_nil N (by decide))]
    exact parse_suffixes_dotted_post hN
  · -- dotted .dev after the release
    have hchars : ∀ c ∈ rel ++ ".dev".toList ++ N, isDig c = true ∨ c ∈ ".dev".toList := by
      intro c hc
      rcases List.mem_append.mp hc with h1 | h1
      · rcases List.mem_append.mp h1 with h2 | h2
        · rcases hrelchars c h2 with hd | hd
          · exact Or.inl hd
          · right; rw [hd]; decide
        · exact Or.inr h2
      · exact Or.inl (hNdig c h1)
    have hnot : ∀ ch : Char, isDig ch = false → ch ∉ ".dev".toList →
        ch ∉ rel ++ ".dev".toList ++ N := by
      intro ch h1 h2 hmem
      rcases hchars ch hmem with hh | hh
      · rw [hh] at h1
        exact Bool.noConfusion h1
      · exact h2 hh
    have hSne : rel ++ ".dev".toList ++ N ≠ [] := by
      intro h
      rw [List.append_eq_nil, List.append_eq_nil] at h
      exact hrelne h.1.1
    have hmk : ∀ d ∈ ".dev".toList, lowerChar d = d := by decide
    have hlower : lowerStr (rel ++ ".dev".toList ++ N) = rel ++ ".dev".toList ++ N :=
      lowerStr_fixed (fun c hc => by
        rcases hchars c hc with hd | hd
        · exact lowerChar_isDig hd
        · exact hmk c hd)
    have hsplitd : split_at_prerelease (rel ++ ".dev".toList ++ N) =
        (rel, ".dev".toList ++ N) := by
      refine split_at_prerelease_dev (List.append_assoc _ _ _) ?_ ?_ ?_
      · exact pre_markers_none
          (hnot 'a' (by decide) (by decide)) (hnot 'b' (by decide) (by decide))
          (hnot 'c' (by decide) (by decide)) (hnot 'r' (by decide) (by decide))
      · exact firstIdx_none_of_not_mem (show 'p' ∈ ".post".toList by decide)
          (hnot 'p' (by decide) (by decide))
      · exact firstIdx_dotted_marker 'd' (by decide) (by decide) (by decide) (by decide)
          hrelchars (by decide)
    have hval : validate_python (rel ++ ".dev".toList ++ N) =
        pythonAfterEpoch (rel ++ ".dev".toList ++ N) := by
      simp only [validate_python]
      rw [if_neg hSne, hlower,
        (findChar_none_iff '!' _).mpr (hnot '!' (by decide) (by decide))]
    have hafter : pythonAfterEpoch (rel ++ ".dev".toList ++ N) =
        parse_main_version (rel ++ ".dev".toList ++ N) := by
      simp only [pythonAfterEpoch]
      rw [(findChar_none_iff '+' _).mpr (hnot '+' (by decide) (by decide))]
    rw [hval, hafter]
    simp only [parse_main_version]
    rw [if_neg hSne]
    rw [show (split_at_prerelease (rel ++ ".dev".toList ++ N)).1 = rel from by rw [hsplitd],
      show (split_at_prerelease (rel ++ ".dev".toList ++ N)).2 = ".dev".toList ++ N from by
        rw [hsplitd]]
    rw [if_neg (by
      intro hfalse
      rw [hvalidrel] at hfalse
      exact Bool.noConfusion hfalse)]
    rw [if_neg (append_ne_nil_of_ne_nil N (by decide))]
    exact parse_suffixes_dotted_dev hN

/-- C4 witness: the amended claim evaluated at release `1.2` and digits `7`. -/
theorem C4_extended_dotted_post_dev_witness :
    validate_python ("1.2".toList ++ ".post".toList ++ "7".toList) = .ok () ∧
    validate_python ("1.2".toList ++ ".dev".toList ++ "7".toList) = .ok () :=
  C4_extended_dotted_post_dev ("1.2".toList) ("7".toList) (by decide) (by decide)

